import Mathlib

/-!
# redacted.c : parallel pattern search and redaction

A shallow embedding of `src/redacted.c`.  The program reads a file into
`file_buffer`, copies it to the output file, splits the offsets of the buffer
between `num_threads` workers (`distribute_file`, `displacment`), lets each
worker record in `found` the offsets at which `pattern` occurs (`find_string`),
sorts `found` (`qsort` with `compare`) and overwrites every recorded span of the
output file with the character `REDACT_CHARS[thread_id % 64]`.

Conventions of the embedding:

* C integers are `Int`; a value stored in an `int` goes through `to_int`
  (32 bits, two's complement) and a value converted to `size_t` through
  `to_size_t` (64 bits, unsigned);
* bytes are `Char`, buffers and files are `List Char`;
* a run either ends in a `Fault` (an exit through `fatal_error`, or an
  operation whose behaviour C leaves undefined) or returns its result;
* the workers run one after the other, in the order in which `main` creates
  them: one of the schedules the mutex allows.
-/

namespace Redacted

/-! ## Machine integers -/

/-- Value kept by a C `int` (32 bits, two's complement) when `v` is stored in it. -/
def to_int (v : Int) : Int := (v + 2147483648) % 4294967296 - 2147483648

/-- Value of `v` converted to `size_t` (64 bits, unsigned). -/
def to_size_t (v : Int) : Int := v % 18446744073709551616

/-- Largest `long` (64 bits). -/
def LONG_MAX : Int := 9223372036854775807

/-- Smallest `long` (64 bits). -/
def LONG_MIN : Int := -9223372036854775808

/-! ## Data -/

/-- The ways a run stops without producing the output file. -/
inductive Fault where
  /-- `fatal_error(0, "pattern is larger than file")`. -/
  | pattern_larger_than_file
  /-- `fatal_error(errno, "Invalid number of threads")`. -/
  | invalid_number_of_threads
  /-- `fatal_error(errno, "Error seeking in file")`. -/
  | error_seeking
  /-- Undefined behaviour: integer division by zero. -/
  | division_by_zero
  /-- Undefined behaviour: `found[count]` written outside the allocated array. -/
  | found_overflow
  /-- Undefined behaviour: a byte read outside its array. -/
  | buffer_overread
deriving DecidableEq, Repr

/-- The 64 redaction characters (`#define REDACT_CHARS`). -/
def REDACT_CHARS : List Char :=
  "0123456789abcdefghijklmnopqrstuvwxyzABCDEFGHIJKLMNOPQRSTUVWXYZ_ ".toList

/-- Record of `found`: the worker and the offset of one occurrence (`struct x`). -/
structure x where
  thread_id : Int
  index : Int
deriving DecidableEq, Repr

/-- Range of offsets given to one worker (`struct _task_data`). -/
structure task_data where
  first : Int
  last : Int
  task_id : Int
deriving DecidableEq, Repr

/-- Number of records `found` is allocated for: `malloc(250 * sizeof(x))`. -/
def FOUND_CAPACITY : Nat := 250

/-- Read of element `k` of a C array: `none` outside the array. -/
def read (buf : List Char) (k : Int) : Option Char :=
  if 0 ≤ k then buf.get? k.toNat else none

/-! ## Partition of the buffer -/

/-- Step of `displacment`: `displs[i] = displs[i - 1] + distribute[i - 1] - (pattern_size - 1)`,
the `int` sum being converted to `size_t` for the subtraction and back to `int`. -/
def displacment_step (pattern_size prev d : Int) : Int :=
  to_int (to_size_t (to_size_t (to_int (prev + d)) - to_size_t (pattern_size - 1)))

/-- Loop of `displacment`: the entries `displs[i]`, `displs[i + 1]`, ... computed from
`prev = displs[i - 1]` and `distribute[i - 1]`, `distribute[i]`, ... -/
def displacment_loop (pattern_size : Int) : Int → List Int → List Int
  | _, [] => []
  | prev, d :: ds =>
    displacment_step pattern_size prev d ::
      displacment_loop pattern_size (displacment_step pattern_size prev d) ds

/-- The array `displs` filled by `displacment(displs, distribute, pattern_size, p)`:
`displs[0] = 0`, then one entry for each `i` with `1 ≤ i < p`. -/
def displacment (distribute : List Int) (pattern_size : Int) (p : Nat) : List Int :=
  0 :: displacment_loop pattern_size 0 (distribute.take (p - 1))

/-- Loop of `distribute_file`, from index `i` with `r` extra bytes left to hand out;
the first argument counts the iterations left (`p - i`). -/
def distribute_file_loop (n pattern_size p : Int) : Nat → Int → Int → List Int
  | 0, _, _ => []
  | k + 1, i, r =>
    let d := n
    let d1 := if r > 0 then to_int (d + 1) else d
    let r1 := if r > 0 then to_int (r - 1) else r
    let d2 := if i < p - 1 then to_int (to_size_t (to_size_t d1 + to_size_t (pattern_size - 1))) else d1
    d2 :: distribute_file_loop n pattern_size p k (i + 1) r1

/-- The array `distribute` filled by `distribute_file(file_size, pattern_size, p, distribute)`.
The division `file_size / p` is undefined for `p = 0`. -/
def distribute_file (file_size pattern_size p : Int) : Except Fault (List Int) :=
  if p = 0 then .error .division_by_zero
  else .ok (distribute_file_loop (to_int (Int.tdiv file_size p)) pattern_size p p.toNat 0
    (to_int (Int.tmod file_size p)))

/-- The `task_data` of worker `t` (body of the loop of `main` that creates the threads). -/
def make_task (file_size : Int) (distribute displs : List Int) (t : Nat) : task_data :=
  let first := displs.getD t 0
  let last := to_int (distribute.getD t 0 + displs.getD t 0)
  let last1 := if last ≥ file_size - 1 then to_int (file_size - 2) else last
  { first := first, last := last1, task_id := t }

/-- The array `thread_data` built by `main` for `num_threads` workers over a file of
`file_size` bytes. -/
def main_tasks (file_size pattern_size num_threads : Int) : Except Fault (List task_data) :=
  match distribute_file (file_size - 1) pattern_size num_threads with
  | .error e => .error e
  | .ok distribute =>
    let displs := displacment distribute pattern_size num_threads.toNat
    .ok ((List.range num_threads.toNat).map (make_task file_size distribute displs))

/-! ## Search -/

/-- The `while` loop of `find_string` at offset `i`, from `j`: the value of `j` when the
loop ends.  The first argument bounds the number of iterations. -/
def while_loop (file_buffer pattern : List Char) (i : Int) : Nat → Int → Except Fault Int
  | 0, j => .ok j
  | fuel + 1, j =>
    if to_size_t j < pattern.length ∧ i + j < (file_buffer.length : Int) - 1 then
      match read file_buffer (i + j), read pattern j with
      | some a, some b =>
        if a ≠ b then .ok j else while_loop file_buffer pattern i fuel (j + 1)
      | _, _ => .error .buffer_overread
    else .ok j

/-- The critical section of `find_string`: `found[count] = {thread_id, i}; count++`,
where `count` is the number of records stored so far. -/
def store (found : List x) (r : x) : Except Fault (List x) :=
  if found.length < FOUND_CAPACITY then .ok (found ++ [r]) else .error .found_overflow

/-- The `for` loop of `find_string` from offset `i`.  The first argument counts the
iterations left (`last + 1 - i`). -/
def for_loop (file_buffer pattern : List Char) (t : task_data) :
    Nat → Int → List x → Except Fault (List x)
  | 0, _, found => .ok found
  | fuel + 1, i, found =>
    if i ≤ t.last then
      match while_loop file_buffer pattern i (pattern.length + 1) 0 with
      | .error e => .error e
      | .ok j =>
        if to_size_t j = pattern.length then
          match store found { thread_id := t.task_id, index := i } with
          | .error e => .error e
          | .ok found1 => for_loop file_buffer pattern t fuel (i + 1) found1
        else for_loop file_buffer pattern t fuel (i + 1) found
    else .ok found

/-- One worker: `find_string` run on the range `t`, starting from the records already
in `found`. -/
def find_string (file_buffer pattern : List Char) (t : task_data) (found : List x) :
    Except Fault (List x) :=
  for_loop file_buffer pattern t (t.last + 1 - t.first).toNat t.first found

/-- The workers of `thread_data`, run to completion one after the other. -/
def run_threads (file_buffer pattern : List Char) : List task_data → List x → Except Fault (List x)
  | [], found => .ok found
  | t :: ts, found =>
    match find_string file_buffer pattern t found with
    | .error e => .error e
    | .ok found1 => run_threads file_buffer pattern ts found1

/-- The array `found` when all workers have been joined (`main`, from
`distribute_file` to the `pthread_join` loop), for `num_threads` workers. -/
def main_scan (num_threads : Int) (pattern file_buffer : List Char) : Except Fault (List x) :=
  match main_tasks file_buffer.length pattern.length num_threads with
  | .error e => .error e
  | .ok tasks => run_threads file_buffer pattern tasks []

/-! ## Arguments -/

/-- The C library's `isspace` in the "C" locale. -/
def isspace (c : Char) : Bool :=
  c.toNat = 32 || (9 ≤ c.toNat && c.toNat ≤ 13)

/-- The C library's `strtol(arg, NULL, 10)`: the value returned and whether `errno`
is set to `ERANGE`.  Leading white space and one sign are skipped, the longest run of
decimal digits is converted (0 when there is none), and a value outside `long` is
replaced by the nearest bound. -/
def strtol (arg : List Char) : Int × Bool :=
  let s := arg.dropWhile isspace
  let neg := s.head? = some '-'
  let body := if s.head? = some '-' ∨ s.head? = some '+' then s.tail else s
  let digits := body.takeWhile Char.isDigit
  let magnitude : Int := digits.foldl (fun acc c => acc * 10 + ((c.toNat : Int) - 48)) 0
  let v := if neg then -magnitude else magnitude
  if v > LONG_MAX then (LONG_MAX, true)
  else if v < LONG_MIN then (LONG_MIN, true)
  else (v, false)

/-- Worker count read from the command line by `arg_to_num`: `none` when it calls
`fatal_error`.  The `long` returned by `strtol` is stored in an `int`. -/
def arg_to_num (file_size : Int) (arg : List Char) : Option Int :=
  let arg_num := to_int (strtol arg).1
  if (strtol arg).2 = true ∨ arg_num < 0 ∨ arg_num ≥ file_size then none else some arg_num

/-- The size check of `main`: `file_size - 1 < pattern_size`, the left side converted
to the unsigned type of `pattern_size`. -/
def size_check_fails (file_size pattern_size : Int) : Bool :=
  to_size_t (file_size - 1) < pattern_size

/-! ## Sort and redaction -/

/-- The comparison function given to `qsort`; the `int` subtractions wrap. -/
def compare (x1 x2 : x) : Int :=
  if x1.index = x2.index then to_int (x1.thread_id - x2.thread_id)
  else to_int (x1.index - x2.index)

/-- The C library's `qsort(found, count, sizeof(x), compare)`: the records put in an
order in which `compare` is never positive from an earlier to a later one (an
insertion sort here). -/
def qsort (found : List x) : List x :=
  found.insertionSort (fun a b => compare a b ≤ 0)

/-- The file after `lseek(fd, off, SEEK_SET)` and a `write` of `data`: the bytes at
`off`, `off + 1`, ... are replaced, and the file grows when the write passes its end
(a gap is filled with zero bytes).  A write of no byte leaves the file as it is. -/
def write_at (out : List Char) (off : Nat) (data : List Char) : List Char :=
  if data = [] then out
  else out.take off ++ List.replicate (off - out.length) (Char.ofNat 0) ++ data ++
    out.drop (off + data.length)

/-- The redaction loop of `main` over the records of `found`, on the output file `out`. -/
def redact_loop (pattern_size : Nat) : List x → List Char → Except Fault (List Char)
  | [], out => .ok out
  | r :: rest, out =>
    match read REDACT_CHARS (Int.tmod r.thread_id 64) with
    | none => .error .buffer_overread
    | some c =>
      if r.index < 0 then .error .error_seeking
      else redact_loop pattern_size rest
        (write_at out r.index.toNat (List.replicate pattern_size c))

/-- The program: `argv1` is the worker count, `argv2` the pattern and `input` the
contents of the input file; the result is the contents of the output file.  Failures
of the system calls and of `malloc` are left out. -/
def main (argv1 argv2 input : List Char) : Except Fault (List Char) :=
  if size_check_fails input.length argv2.length then .error .pattern_larger_than_file
  else
    match arg_to_num input.length argv1 with
    | none => .error .invalid_number_of_threads
    | some num_threads =>
      match main_scan num_threads argv2 input with
      | .error e => .error e
      | .ok found => redact_loop argv2.length (qsort found) input

/-! ## Specification vocabulary -/

/-- Nominal share of worker `t`: `n` offsets, one more for the first `r` workers. -/
def share (n r : Int) (t : Nat) : Int := n + if (t : Int) < r then 1 else 0

/-- Sum of the nominal shares of the workers before `t`. -/
def start (n r : Int) (t : Nat) : Int := t * n + min (t : Int) r

/-- The range of worker `t` in closed form: it starts after the nominal shares of the
workers before it, and ends `pattern_size - 1` offsets after its own share (the last
worker: at the end of its share), or at `file_size - 2` if that comes first. -/
def task_spec (file_size pattern_size : Int) (num_threads : Nat) (t : Nat) : task_data :=
  let n := (file_size - 1) / num_threads
  let r := (file_size - 1) % num_threads
  { first := start n r t
    last := min (start n r (t + 1) + (if t + 1 < num_threads then pattern_size - 1 else 0))
      (file_size - 2)
    task_id := t }

/-- The pattern occurs in the buffer at offset `i`: the bytes `buffer[i .. i + L)` are
the bytes of the pattern, `L` being its length. -/
def occurs (buffer pattern : List Char) (i : Nat) : Prop :=
  (buffer.drop i).take pattern.length = pattern

instance (buffer pattern : List Char) (i : Nat) : Decidable (occurs buffer pattern i) := by
  unfold occurs; infer_instance

/-- An occurrence of the pattern at offset `i` that ends before the last byte of the
buffer: `i + L ≤ N - 1`, for a buffer of `N` bytes. -/
def scanned_occurrence (buffer pattern : List Char) (i : Nat) : Prop :=
  i + pattern.length + 1 ≤ buffer.length ∧ occurs buffer pattern i

instance (buffer pattern : List Char) (i : Nat) :
    Decidable (scanned_occurrence buffer pattern i) := by
  unfold scanned_occurrence; infer_instance

/-- The records a worker `thread_id` stores for the `count` offsets from `i` on: one
for each occurrence that ends before the last byte, in ascending order. -/
def hits (buffer pattern : List Char) (thread_id : Int) (i count : Nat) : List x :=
  ((List.range' i count).filter (fun a => decide (scanned_occurrence buffer pattern a))).map
    (fun (a : Nat) => { thread_id := thread_id, index := (a : Int) })

/-- The records stored by the worker of range `t`. -/
def task_hits (buffer pattern : List Char) (t : task_data) : List x :=
  hits buffer pattern t.task_id t.first.toNat (t.last + 1 - t.first).toNat

/-- All the records stored by the `num_threads` workers of `main`, the workers taken
one after the other. -/
def all_hits (buffer pattern : List Char) (num_threads : Nat) : List x :=
  ((List.range num_threads).map (task_spec buffer.length pattern.length num_threads)).flatMap
    (task_hits buffer pattern)

/-- Order of the records of `found`: by offset, and by worker for the same offset. -/
def record_le (a b : x) : Prop :=
  a.index < b.index ∨ (a.index = b.index ∧ a.thread_id ≤ b.thread_id)

instance : DecidableRel record_le := fun a b => by
  unfold record_le; infer_instance

instance : IsTotal x record_le := ⟨fun a b => by unfold record_le; omega⟩

instance : IsTrans x record_le := ⟨fun a b c => by unfold record_le; omega⟩

/-- The span `[index, index + pattern_size)` of the record `r` holds the byte `k`. -/
def covers (pattern_size k : Nat) (r : x) : Prop :=
  r.index ≤ k ∧ (k : Int) < r.index + pattern_size

instance (pattern_size k : Nat) (r : x) : Decidable (covers pattern_size k r) := by
  unfold covers; infer_instance

/-- The last record of the array, in array order, whose span holds the byte `k`. -/
def last_writer (pattern_size : Nat) : List x → Nat → Option x
  | [], _ => none
  | r :: rest, k =>
    match last_writer pattern_size rest k with
    | some w => some w
    | none => if covers pattern_size k r then some r else none

/-- The buffer "aaabaaab" of the boundary scenario. -/
def boundary_buffer : List Char := ['a', 'a', 'a', 'b', 'a', 'a', 'a', 'b']

/-- The pattern "aaab" of the boundary scenario. -/
def boundary_pattern : List Char := ['a', 'a', 'a', 'b']

/-- A file "aaaab" in which the occurrences of "aa" overlap. -/
def overlap_buffer : List Char := ['a', 'a', 'a', 'a', 'b']

/-- The pattern "aa". -/
def overlap_pattern : List Char := ['a', 'a']

/-- A file "ababc". -/
def plain_buffer : List Char := ['a', 'b', 'a', 'b', 'c']

/-- The pattern "ab". -/
def plain_pattern : List Char := ['a', 'b']

instance : IsAntisymm x record_le :=
  ⟨fun a b h1 h2 => by
    cases a
    cases b
    unfold record_le at h1 h2
    simp only at h1 h2
    simp only [x.mk.injEq]
    omega⟩

/-- Number of starting offsets that lie both in the range of `a` and in the range of `b`. -/
def common_offsets (a b : task_data) : Nat :=
  (min a.last b.last + 1 - max a.first b.first).toNat

/-- Nominal share of worker `t`: `distribute[t]` without the `pattern_size - 1` offsets
that `distribute_file` adds for every worker but the last. -/
def nominal_share (distribute : List Int) (pattern_size : Int) (p t : Nat) : Int :=
  distribute.getD t 0 - (if t + 1 < p then pattern_size - 1 else 0)

/-- First offset of the nominal range of worker `t`: the sum of the nominal shares of the
workers before it. -/
def nominal_start (distribute : List Int) (pattern_size : Int) (p t : Nat) : Int :=
  ((List.range t).map (nominal_share distribute pattern_size p)).sum

/-- The reads of the `while` loop of `find_string` at offset `i`, from `j`: for each
evaluation of `file_buffer[i+j] != pattern[j]`, the index read in `file_buffer` and the
index read in `pattern`, in the order of the reads. -/
def while_reads (file_buffer pattern : List Char) (i : Int) : Nat → Int → List (Int × Int)
  | 0, _ => []
  | fuel + 1, j =>
    if to_size_t j < pattern.length ∧ i + j < (file_buffer.length : Int) - 1 then
      (i + j, j) ::
        (match read file_buffer (i + j), read pattern j with
        | some a, some b =>
          if a ≠ b then [] else while_reads file_buffer pattern i fuel (j + 1)
        | _, _ => [])
    else []

/-- The reads of the `for` loop of `find_string` from offset `i`, when no iteration stops
the worker. -/
def for_reads (file_buffer pattern : List Char) (t : task_data) : Nat → Int → List (Int × Int)
  | 0, _ => []
  | fuel + 1, i =>
    if i ≤ t.last then
      while_reads file_buffer pattern i (pattern.length + 1) 0 ++
        for_reads file_buffer pattern t fuel (i + 1)
    else []

/-- The reads of `find_string` on the range `t`. -/
def find_string_reads (file_buffer pattern : List Char) (t : task_data) : List (Int × Int) :=
  for_reads file_buffer pattern t (t.last + 1 - t.first).toNat t.first

/-! ## Lemmas -/

theorem to_int_eq {v : Int} (h1 : -2147483648 ≤ v) (h2 : v < 2147483648) : to_int v = v := by
  unfold to_int; omega

theorem to_size_t_eq {v : Int} (h1 : 0 ≤ v) (h2 : v < 18446744073709551616) :
    to_size_t v = v := by
  unfold to_size_t; omega

theorem start_succ (n r : Int) (t : Nat) : start n r (t + 1) = start n r t + share n r t := by
  unfold start share
  have h : ((t + 1 : Nat) : Int) * n = t * n + n := by push_cast; ring
  rw [h]
  split_ifs <;> omega

theorem start_nonneg (n r : Int) (hn : 0 ≤ n) (hr : 0 ≤ r) (t : Nat) : 0 ≤ start n r t := by
  unfold start
  have : 0 ≤ (t : Int) * n := Int.mul_nonneg (Int.ofNat_nonneg t) hn
  omega

theorem distribute_file_loop_length (n L p : Int) :
    ∀ (k : Nat) (i r : Int), (distribute_file_loop n L p k i r).length = k := by
  intro k
  induction k with
  | zero => intro i r; rfl
  | succ k ih => intro i r; simp [distribute_file_loop, ih]

theorem distribute_file_loop_getD (n L p : Int) (hn : 0 ≤ n) (hL : 1 ≤ L)
    (hb : n + L < 2147483648) :
    ∀ (k : Nat) (i r : Int) (t : Nat), t < k → 0 ≤ r → r < 2147483648 →
      (distribute_file_loop n L p k i r).getD t 0
        = share n r t + (if i + t < p - 1 then L - 1 else 0) := by
  intro k
  induction k with
  | zero => intro i r t ht; omega
  | succ k ih =>
    intro i r t ht hr hr2
    cases t with
    | zero =>
      simp only [distribute_file_loop, List.getD_cons_zero, share]
      unfold to_int to_size_t
      split_ifs <;> omega
    | succ t =>
      simp only [distribute_file_loop, List.getD_cons_succ]
      rw [ih (i + 1) _ t (by omega)]
      · unfold share
        have e : i + 1 + (t : Int) = i + ((t + 1 : Nat) : Int) := by push_cast; ring
        rw [e]
        unfold to_int
        split_ifs <;> omega
      · unfold to_int; split_ifs <;> omega
      · unfold to_int; split_ifs <;> omega

theorem start_zero (n r : Int) (hr : 0 ≤ r) : start n r 0 = 0 := by
  unfold start; simp; exact hr

theorem share_nonneg (n r : Int) (hn : 0 ≤ n) (t : Nat) : 0 ≤ share n r t := by
  unfold share; split_ifs <;> omega

theorem start_mono (n r : Int) (hn : 0 ≤ n) {t u : Nat} (h : t ≤ u) :
    start n r t ≤ start n r u := by
  induction u with
  | zero =>
    have : t = 0 := by omega
    subst this; exact le_refl _
  | succ u ih =>
    rcases Nat.lt_or_ge t (u + 1) with h1 | h1
    · have := ih (by omega)
      have h2 := start_succ n r u
      have h3 := share_nonneg n r hn u
      omega
    · have : t = u + 1 := by omega
      subst this; exact le_refl _

theorem start_total (M P : Int) (hP : 1 ≤ P) :
    start (M / P) (M % P) P.toNat = M := by
  unfold start
  have h1 : ((P.toNat : Nat) : Int) = P := Int.toNat_of_nonneg (by omega)
  rw [h1]
  have h2 : M % P < P := Int.emod_lt_of_pos M (by omega)
  have h3 : 0 ≤ M % P := Int.emod_nonneg M (by omega)
  have h4 := Int.ediv_add_emod M P
  rw [min_eq_right (by omega)]
  linarith

theorem displacment_loop_getD (n r L : Int) (hn : 0 ≤ n) (hr : 0 ≤ r) (hL : 1 ≤ L)
    (hL2 : L < 2147483648) :
    ∀ (ds : List Int) (b : Nat),
      (∀ s, s < ds.length → ds.getD s 0 = share n r (b + s) + (L - 1)) →
      (∀ s, s < ds.length → start n r (b + s + 1) + L < 2147483648) →
      ∀ t, t < ds.length →
        (displacment_loop L (start n r b) ds).getD t 0 = start n r (b + t + 1) := by
  intro ds
  induction ds with
  | nil => intro b _ _ t ht; simp at ht
  | cons d ds ih =>
    intro b hd hbound t ht
    have h0 := hd 0 (by simp)
    have hb0 := hbound 0 (by simp)
    simp only [List.getD_cons_zero, Nat.add_zero] at h0 hb0
    have hs := start_succ n r b
    have hnn := start_nonneg n r hn hr b
    have hnn1 := start_nonneg n r hn hr (b + 1)
    have hstep : displacment_step L (start n r b) d = start n r (b + 1) := by
      unfold displacment_step to_int to_size_t
      omega
    cases t with
    | zero =>
      simp only [displacment_loop, List.getD_cons_zero, Nat.add_zero]
      exact hstep
    | succ t =>
      simp only [displacment_loop, List.getD_cons_succ]
      rw [hstep]
      have e : b + (t + 1) + 1 = b + 1 + t + 1 := by omega
      rw [e]
      apply ih (b + 1)
      · intro s hs'
        have := hd (s + 1) (by simp; omega)
        rw [List.getD_cons_succ] at this
        rw [this]
        have e2 : b + (s + 1) = b + 1 + s := by omega
        rw [e2]
      · intro s hs'
        have := hbound (s + 1) (by simp; omega)
        have e2 : b + (s + 1) + 1 = b + 1 + s + 1 := by omega
        rw [e2] at this
        exact this
      · simp at ht; omega

theorem main_tasks_eq (N L : Int) (P : Nat) (hL : 1 ≤ L) (hLN : L < N) (hP : 1 ≤ P)
    (hPN : (P : Int) < N) (hN : N < 1073741824) :
    main_tasks N L P = .ok ((List.range P).map (task_spec N L P)) := by
  have hP0 : (P : Int) ≠ 0 := by omega
  have hdiv : Int.tdiv (N - 1) P = (N - 1) / P := Int.tdiv_eq_ediv (by omega) (by omega)
  have hmod : Int.tmod (N - 1) P = (N - 1) % P := Int.tmod_eq_emod (by omega) (by omega)
  have hn0 : 0 ≤ (N - 1) / (P : Int) := Int.ediv_nonneg (by omega) (by omega)
  have hnle : (N - 1) / (P : Int) ≤ N - 1 := Int.ediv_le_self _ (by omega)
  have hr0 : 0 ≤ (N - 1) % (P : Int) := Int.emod_nonneg _ hP0
  have hrlt : (N - 1) % (P : Int) < P := Int.emod_lt_of_pos _ (by omega)
  have htot := start_total (N - 1) P (by omega)
  simp only [Int.toNat_ofNat] at htot
  have hle : ∀ u, u ≤ P → start ((N - 1) / P) ((N - 1) % P) u ≤ N - 1 := by
    intro u hu
    have := start_mono ((N - 1) / P) ((N - 1) % P) hn0 hu
    omega
  simp only [main_tasks, distribute_file, hP0, if_false, Int.toNat_ofNat, hdiv, hmod]
  rw [to_int_eq (by omega) (by omega), to_int_eq (by omega) (by omega)]
  congr 1
  apply List.map_congr_left
  intro t ht
  rw [List.mem_range] at ht
  have hdist : (distribute_file_loop ((N - 1) / P) L P P 0 ((N - 1) % P)).getD t 0
      = share ((N - 1) / P) ((N - 1) % P) t + (if (0 : Int) + t < P - 1 then L - 1 else 0) :=
    distribute_file_loop_getD _ L P hn0 hL (by omega) P 0 _ t ht hr0 (by omega)
  have hdispl : (displacment (distribute_file_loop ((N - 1) / P) L P P 0 ((N - 1) % P)) L P).getD t 0
      = start ((N - 1) / P) ((N - 1) % P) t := by
    unfold displacment
    cases t with
    | zero => simp [start_zero _ _ hr0]
    | succ t =>
      rw [List.getD_cons_succ]
      have h0 := start_zero ((N - 1) / P) ((N - 1) % P) hr0
      have := displacment_loop_getD ((N - 1) / P) ((N - 1) % P) L hn0 hr0 hL (by omega)
        ((distribute_file_loop ((N - 1) / P) L P P 0 ((N - 1) % P)).take (P - 1)) 0
      rw [h0] at this
      have hlen : ((distribute_file_loop ((N - 1) / P) L P P 0 ((N - 1) % P)).take (P - 1)).length
          = P - 1 := by
        rw [List.length_take, distribute_file_loop_length]; omega
      rw [hlen] at this
      have h3 := this ?_ ?_ t (by omega)
      · rw [h3]; congr 1; omega
      · intro s hs
        rw [List.getD_eq_getElem?_getD, List.getElem?_take, if_pos hs,
          ← List.getD_eq_getElem?_getD,
          distribute_file_loop_getD _ L P hn0 hL (by omega) P 0 _ s (by omega) hr0 (by omega)]
        rw [if_pos (by omega)]
        simp
      · intro s hs
        have := hle (0 + s + 1) (by omega)
        omega
  have hs := start_succ ((N - 1) / P) ((N - 1) % P) t
  have hnn := start_nonneg ((N - 1) / P) ((N - 1) % P) hn0 hr0 t
  have hle1 := hle (t + 1) (by omega)
  have hnn1 := start_nonneg ((N - 1) / P) ((N - 1) % P) hn0 hr0 (t + 1)
  simp only [make_task, task_spec, hdist, hdispl]
  have hraw : share ((N - 1) / P) ((N - 1) % P) t + (if (0 : Int) + t < P - 1 then L - 1 else 0)
      + start ((N - 1) / P) ((N - 1) % P) t
      = start ((N - 1) / P) ((N - 1) % P) (t + 1) + (if t + 1 < P then L - 1 else 0) := by
    split_ifs <;> omega
  rw [hraw]
  have hif : (0 : Int) ≤ (if t + 1 < P then L - 1 else 0) ∧ (if t + 1 < P then L - 1 else 0) ≤ L - 1 := by
    split_ifs <;> omega
  rw [to_int_eq (by omega) (by omega), to_int_eq (by omega) (by omega)]
  congr 1
  split_ifs <;> omega

theorem read_nat (buf : List Char) (k : Nat) : read buf (k : Int) = buf[k]? := by
  simp [read]

theorem while_loop_spec (buf pat : List Char) (i : Nat) (hL : pat.length < 2147483648) :
    ∀ (fuel j : Nat), j ≤ pat.length → pat.length + 1 ≤ j + fuel →
      ∃ j1 : Nat, while_loop buf pat i fuel j = .ok (j1 : Int) ∧ j1 ≤ pat.length ∧
        (j1 = pat.length ↔
          ∀ k, j ≤ k → k < pat.length → i + k + 1 < buf.length ∧ buf[i + k]? = pat[k]?) := by
  intro fuel
  induction fuel with
  | zero => intro j h1 h2; omega
  | succ fuel ih =>
    intro j h1 h2
    have hsz : to_size_t (j : Int) = j := to_size_t_eq (by omega) (by omega)
    have hij : (i : Int) + (j : Int) = ((i + j : Nat) : Int) := by push_cast; rfl
    unfold while_loop
    rw [hsz, hij, read_nat, read_nat]
    by_cases hg : (j : Int) < pat.length ∧ ((i + j : Nat) : Int) < (buf.length : Int) - 1
    · rw [if_pos hg]
      have hj : j < pat.length := by omega
      have hi : i + j < buf.length := by omega
      rw [List.getElem?_eq_getElem hi, List.getElem?_eq_getElem hj]
      simp only
      by_cases hne : buf[i + j] ≠ pat[j]
      · rw [if_pos hne]
        refine ⟨j, rfl, h1, ?_⟩
        constructor
        · intro h; omega
        · intro h
          have := (h j (le_refl _) hj).2
          rw [List.getElem?_eq_getElem hi, List.getElem?_eq_getElem hj] at this
          exact absurd (Option.some.inj this) hne
      · rw [if_neg hne]
        have heq : buf[i + j] = pat[j] := by
          by_contra h; exact hne h
        have hj1 : (j : Int) + 1 = ((j + 1 : Nat) : Int) := by push_cast; rfl
        rw [hj1]
        obtain ⟨j1, e1, e2, e3⟩ := ih (j + 1) (by omega) (by omega)
        refine ⟨j1, e1, e2, ?_⟩
        rw [e3]
        constructor
        · intro h k hk1 hk2
          rcases Nat.eq_or_lt_of_le hk1 with hk | hk
          · subst hk
            refine ⟨by omega, ?_⟩
            rw [List.getElem?_eq_getElem hi, List.getElem?_eq_getElem hj, heq]
          · exact h k hk hk2
        · intro h k hk1 hk2
          exact h k (by omega) hk2
    · rw [if_neg hg]
      refine ⟨j, rfl, h1, ?_⟩
      constructor
      · intro h k hk1 hk2; omega
      · intro h
        by_contra hj
        have hj2 : j < pat.length := by omega
        have := (h j (le_refl _) hj2).1
        apply hg
        constructor <;> omega

theorem scanned_occurrence_iff (buf pat : List Char) (i : Nat) (hL : 1 ≤ pat.length) :
    (∀ k, 0 ≤ k → k < pat.length → i + k + 1 < buf.length ∧ buf[i + k]? = pat[k]?) ↔
      scanned_occurrence buf pat i := by
  unfold scanned_occurrence occurs
  constructor
  · intro h
    have h1 := (h (pat.length - 1) (by omega) (by omega)).1
    refine ⟨by omega, ?_⟩
    apply List.ext_getElem?
    intro k
    rw [List.getElem?_take]
    by_cases hk : k < pat.length
    · rw [if_pos hk, List.getElem?_drop]
      exact (h k (by omega) hk).2
    · rw [if_neg hk]
      exact (List.getElem?_eq_none (by omega)).symm
  · intro ⟨h1, h2⟩ k _ hk
    refine ⟨by omega, ?_⟩
    have : ((buf.drop i).take pat.length)[k]? = pat[k]? := by rw [h2]
    rw [List.getElem?_take, if_pos hk, List.getElem?_drop] at this
    exact this

theorem hits_succ (buf pat : List Char) (tid : Int) (i count : Nat) :
    hits buf pat tid i (count + 1) =
      if scanned_occurrence buf pat i then
        { thread_id := tid, index := (i : Int) } :: hits buf pat tid (i + 1) count
      else hits buf pat tid (i + 1) count := by
  unfold hits
  rw [List.range'_succ, List.filter_cons]
  by_cases h : scanned_occurrence buf pat i
  · simp [h]
  · simp [h]

theorem for_loop_eq (buf pat : List Char) (t : task_data) (hL1 : 1 ≤ pat.length)
    (hL : pat.length < 2147483648) :
    ∀ (fuel i : Nat) (found : List x), (fuel = 0 ∨ (i : Int) + fuel ≤ t.last + 1) →
      found.length ≤ FOUND_CAPACITY →
      for_loop buf pat t fuel i found =
        if found.length + (hits buf pat t.task_id i fuel).length ≤ FOUND_CAPACITY then
          .ok (found ++ hits buf pat t.task_id i fuel)
        else .error .found_overflow := by
  intro fuel
  induction fuel with
  | zero =>
    intro i found _ hcap
    simp [for_loop, hits, hcap]
  | succ fuel ih =>
    intro i found h hcap0
    have hle : (i : Int) ≤ t.last := by
      rcases h with h | h
      · omega
      · push_cast at h; omega
    obtain ⟨j1, e1, e2, e3⟩ := while_loop_spec buf pat i hL (pat.length + 1) 0 (by omega) (by omega)
    rw [scanned_occurrence_iff buf pat i hL1] at e3
    have hsz : to_size_t (j1 : Int) = j1 := to_size_t_eq (by omega) (by omega)
    have hi1 : (i : Int) + 1 = ((i + 1 : Nat) : Int) := by push_cast; rfl
    have hnext : fuel = 0 ∨ ((i + 1 : Nat) : Int) + fuel ≤ t.last + 1 := by
      rcases h with h | h
      · omega
      · right; push_cast at h ⊢; omega
    unfold for_loop
    rw [if_pos hle]
    simp only [Nat.cast_zero] at e1 ⊢
    rw [e1]
    simp only [hsz, hi1, hits_succ]
    by_cases hocc : scanned_occurrence buf pat i
    · have hj : j1 = pat.length := e3.mpr hocc
      rw [if_pos (by exact_mod_cast hj), if_pos hocc]
      unfold store
      by_cases hcap : found.length < FOUND_CAPACITY
      · rw [if_pos hcap]
        simp only
        rw [ih (i + 1) _ hnext (by simp; omega)]
        simp only [List.length_append, List.length_cons, List.length_nil, List.append_assoc,
          List.singleton_append]
        by_cases hc2 : found.length + (0 + 1) + (hits buf pat t.task_id (i + 1) fuel).length
            ≤ FOUND_CAPACITY
        · rw [if_pos hc2, if_pos (by omega)]
        · rw [if_neg hc2, if_neg (by omega)]
      · rw [if_neg hcap]
        simp only [List.length_cons]
        rw [if_neg (by omega)]
    · have hj : ¬ j1 = pat.length := fun h => hocc (e3.mp h)
      rw [if_neg (by exact_mod_cast hj), if_neg hocc]
      exact ih (i + 1) found hnext hcap0

theorem find_string_eq (buf pat : List Char) (t : task_data) (found : List x)
    (hL1 : 1 ≤ pat.length) (hL : pat.length < 2147483648) (hfirst : 0 ≤ t.first)
    (hcap : found.length ≤ FOUND_CAPACITY) :
    find_string buf pat t found =
      if found.length + (task_hits buf pat t).length ≤ FOUND_CAPACITY then
        .ok (found ++ task_hits buf pat t)
      else .error .found_overflow := by
  unfold find_string task_hits
  have h1 : t.first = ((t.first.toNat : Nat) : Int) := (Int.toNat_of_nonneg hfirst).symm
  have h2 := for_loop_eq buf pat t hL1 hL (t.last + 1 - t.first).toNat t.first.toNat found
    (by omega) hcap
  rw [← h1] at h2
  exact h2

theorem run_threads_eq (buf pat : List Char) (hL1 : 1 ≤ pat.length)
    (hL : pat.length < 2147483648) :
    ∀ (tasks : List task_data) (found : List x), (∀ t ∈ tasks, 0 ≤ t.first) →
      found.length ≤ FOUND_CAPACITY →
      run_threads buf pat tasks found =
        if found.length + (tasks.flatMap (task_hits buf pat)).length ≤ FOUND_CAPACITY then
          .ok (found ++ tasks.flatMap (task_hits buf pat))
        else .error .found_overflow := by
  intro tasks
  induction tasks with
  | nil => intro found _ hcap; simp [run_threads, hcap]
  | cons t ts ih =>
    intro found hfirst hcap
    unfold run_threads
    rw [find_string_eq buf pat t found hL1 hL (hfirst t (List.mem_cons_self _ _)) hcap]
    simp only [List.flatMap_cons, List.length_append]
    by_cases h1 : found.length + (task_hits buf pat t).length ≤ FOUND_CAPACITY
    · rw [if_pos h1]
      simp only
      rw [ih _ (fun u hu => hfirst u (List.mem_cons_of_mem _ hu)) (by simp; omega)]
      simp only [List.length_append, List.append_assoc]
      by_cases h2 : found.length + (task_hits buf pat t).length
          + (ts.flatMap (task_hits buf pat)).length ≤ FOUND_CAPACITY
      · rw [if_pos h2, if_pos (by omega)]
      · rw [if_neg h2, if_neg (by omega)]
    · rw [if_neg h1]
      simp only
      rw [if_neg (by omega)]

theorem mem_task_hits (buf pat : List Char) (t : task_data) (hfirst : 0 ≤ t.first) (r : x) :
    r ∈ task_hits buf pat t ↔
      r.thread_id = t.task_id ∧ ∃ a : Nat, r.index = a ∧ t.first ≤ a ∧ (a : Int) ≤ t.last ∧
        scanned_occurrence buf pat a := by
  unfold task_hits hits
  simp only [List.mem_map, List.mem_filter, List.mem_range'_1, decide_eq_true_eq]
  constructor
  · rintro ⟨a, ⟨⟨h1, h2⟩, h3⟩, rfl⟩
    exact ⟨rfl, a, rfl, by omega, by omega, h3⟩
  · rintro ⟨h1, a, h2, h3, h4, h5⟩
    refine ⟨a, ⟨⟨by omega, by omega⟩, h5⟩, ?_⟩
    cases r
    simp only at h1 h2
    rw [h1, h2]

theorem task_spec_first_nonneg (N L : Int) (P t : Nat) (hN : 1 ≤ N) (hP : 1 ≤ P) :
    0 ≤ (task_spec N L P t).first := by
  unfold task_spec
  exact start_nonneg _ _ (Int.ediv_nonneg (by omega) (by omega))
    (Int.emod_nonneg _ (by omega)) t

theorem task_spec_last_le (N L : Int) (P t : Nat) : (task_spec N L P t).last ≤ N - 2 := by
  unfold task_spec
  exact min_le_right _ _

theorem task_spec_cover (N L : Int) (P : Nat) (hL : 1 ≤ L) (hP : 1 ≤ P) (hPN : (P : Int) < N)
    (a : Nat) (ha : (a : Int) ≤ N - 2) :
    ∃ t, t < P ∧ (task_spec N L P t).first ≤ a ∧ (a : Int) ≤ (task_spec N L P t).last := by
  have hP0 : (P : Int) ≠ 0 := by omega
  have hn0 : 0 ≤ (N - 1) / (P : Int) := Int.ediv_nonneg (by omega) (by omega)
  have hr0 : 0 ≤ (N - 1) % (P : Int) := Int.emod_nonneg _ hP0
  have htot := start_total (N - 1) P (by omega)
  simp only [Int.toNat_ofNat] at htot
  have key : ∀ u, u ≤ P → (a : Int) < start ((N - 1) / P) ((N - 1) % P) u →
      ∃ t, t < u ∧ start ((N - 1) / P) ((N - 1) % P) t ≤ a ∧
        (a : Int) < start ((N - 1) / P) ((N - 1) % P) (t + 1) := by
    intro u
    induction u with
    | zero =>
      intro _ h
      rw [start_zero _ _ hr0] at h
      omega
    | succ u ih =>
      intro hu h
      by_cases h2 : (a : Int) < start ((N - 1) / P) ((N - 1) % P) u
      · obtain ⟨t, h3, h4⟩ := ih (by omega) h2
        exact ⟨t, by omega, h4⟩
      · exact ⟨u, by omega, by omega, h⟩
  obtain ⟨t, h1, h2, h3⟩ := key P (le_refl _) (by omega)
  refine ⟨t, h1, h2, ?_⟩
  simp only [task_spec]
  have hif : (0 : Int) ≤ (if t + 1 < P then L - 1 else 0) := by
    split_ifs <;> omega
  exact le_min (by omega) ha

theorem main_scan_eq (buf pat : List Char) (P : Nat) (hL1 : 1 ≤ pat.length)
    (hLN : pat.length < buf.length) (hP : 1 ≤ P) (hPN : P < buf.length)
    (hN : buf.length < 1073741824) :
    main_scan P pat buf =
      if (all_hits buf pat P).length ≤ FOUND_CAPACITY then .ok (all_hits buf pat P)
      else .error .found_overflow := by
  unfold main_scan
  rw [main_tasks_eq buf.length pat.length P (by omega) (by omega) hP (by omega) (by omega)]
  simp only
  rw [run_threads_eq buf pat hL1 (by omega) _ [] _ (by simp)]
  · simp [all_hits]
  · intro t ht
    rw [List.mem_map] at ht
    obtain ⟨u, _, rfl⟩ := ht
    exact task_spec_first_nonneg _ _ _ _ (by omega) hP

theorem mem_all_hits (buf pat : List Char) (P : Nat) (hN : 1 ≤ buf.length) (hP : 1 ≤ P) (r : x) :
    r ∈ all_hits buf pat P ↔
      ∃ t, t < P ∧ r.thread_id = t ∧ ∃ a : Nat, r.index = a ∧
        (task_spec buf.length pat.length P t).first ≤ a ∧
        (a : Int) ≤ (task_spec buf.length pat.length P t).last ∧
        scanned_occurrence buf pat a := by
  unfold all_hits
  rw [List.mem_flatMap]
  constructor
  · rintro ⟨tk, h1, h2⟩
    rw [List.mem_map] at h1
    obtain ⟨t, ht, rfl⟩ := h1
    rw [List.mem_range] at ht
    rw [mem_task_hits _ _ _ (task_spec_first_nonneg _ _ _ _ (by omega) hP)] at h2
    exact ⟨t, ht, h2⟩
  · rintro ⟨t, ht, h2⟩
    refine ⟨task_spec buf.length pat.length P t, ?_, ?_⟩
    · rw [List.mem_map]
      exact ⟨t, List.mem_range.mpr ht, rfl⟩
    · rw [mem_task_hits _ _ _ (task_spec_first_nonneg _ _ _ _ (by omega) hP)]
      exact h2

/-- What `found` holds when the workers are joined: every record is an occurrence of the
pattern that ends before the last byte, found by one of the workers, and every such
occurrence is recorded. -/
theorem main_scan_found (buf pat : List Char) (P : Nat) (found : List x)
    (hL1 : 1 ≤ pat.length) (hLN : pat.length < buf.length) (hP : 1 ≤ P)
    (hPN : P < buf.length) (hN : buf.length < 1073741824)
    (hrun : main_scan P pat buf = .ok found) :
    found = all_hits buf pat P ∧
    (∀ r ∈ found, 0 ≤ r.thread_id ∧ r.thread_id < P ∧
      ∃ a : Nat, r.index = a ∧ scanned_occurrence buf pat a) ∧
    (∀ a : Nat, scanned_occurrence buf pat a → ∃ r ∈ found, r.index = a) := by
  rw [main_scan_eq buf pat P hL1 hLN hP hPN hN] at hrun
  have hfound : found = all_hits buf pat P := by
    by_cases h : (all_hits buf pat P).length ≤ FOUND_CAPACITY
    · rw [if_pos h] at hrun
      injection hrun with h1
      exact h1.symm
    · rw [if_neg h] at hrun
      cases hrun
  refine ⟨hfound, ?_, ?_⟩
  · intro r hr
    rw [hfound, mem_all_hits buf pat P (by omega) hP] at hr
    obtain ⟨t, ht, h1, a, h2, _, _, h5⟩ := hr
    exact ⟨by omega, by omega, a, h2, h5⟩
  · intro a ha
    have hle : (a : Int) ≤ (buf.length : Int) - 2 := by
      have := ha.1
      omega
    obtain ⟨t, ht, h1, h2⟩ := task_spec_cover buf.length pat.length P (by omega) hP (by omega) a hle
    refine ⟨{ thread_id := t, index := a }, ?_, rfl⟩
    rw [hfound, mem_all_hits buf pat P (by omega) hP]
    exact ⟨t, ht, rfl, a, rfl, h1, h2, ha⟩

theorem compare_le_iff (a b : x) (ha1 : 0 ≤ a.index) (ha2 : a.index < 2147483648)
    (ha3 : 0 ≤ a.thread_id) (ha4 : a.thread_id < 2147483648)
    (hb1 : 0 ≤ b.index) (hb2 : b.index < 2147483648)
    (hb3 : 0 ≤ b.thread_id) (hb4 : b.thread_id < 2147483648) :
    compare a b ≤ 0 ↔ record_le a b := by
  unfold compare record_le to_int
  split_ifs <;> omega

theorem orderedInsert_congr (r s : x → x → Prop) [DecidableRel r] [DecidableRel s] (a : x) :
    ∀ (l : List x), (∀ b ∈ l, r a b ↔ s a b) →
      List.orderedInsert r a l = List.orderedInsert s a l := by
  intro l
  induction l with
  | nil => intro _; rfl
  | cons b l ih =>
    intro h
    have hb := h b (List.mem_cons_self _ _)
    have hl := ih (fun c hc => h c (List.mem_cons_of_mem _ hc))
    simp only [List.orderedInsert]
    by_cases hr : r a b
    · rw [if_pos hr, if_pos (hb.mp hr)]
    · rw [if_neg hr, if_neg (fun hs => hr (hb.mpr hs)), hl]

theorem insertionSort_congr (r s : x → x → Prop) [DecidableRel r] [DecidableRel s] :
    ∀ (l : List x), (∀ a ∈ l, ∀ b ∈ l, r a b ↔ s a b) →
      List.insertionSort r l = List.insertionSort s l := by
  intro l
  induction l with
  | nil => intro _; rfl
  | cons a l ih =>
    intro h
    have hl := ih (fun c hc d hd => h c (List.mem_cons_of_mem _ hc) d (List.mem_cons_of_mem _ hd))
    simp only [List.insertionSort]
    rw [hl]
    apply orderedInsert_congr
    intro b hb
    rw [List.mem_insertionSort] at hb
    exact h a (List.mem_cons_self _ _) b (List.mem_cons_of_mem _ hb)

/-- On records whose fields are non-negative `int`s, `qsort` orders `found` by offset and,
for the same offset, by worker; it keeps the records. -/
theorem qsort_spec (found : List x)
    (h : ∀ r ∈ found, 0 ≤ r.index ∧ r.index < 2147483648 ∧ 0 ≤ r.thread_id ∧
      r.thread_id < 2147483648) :
    List.Pairwise record_le (qsort found) ∧ (qsort found).Perm found := by
  have e : qsort found = found.insertionSort record_le := by
    unfold qsort
    apply insertionSort_congr
    intro a ha b hb
    obtain ⟨a1, a2, a3, a4⟩ := h a ha
    obtain ⟨b1, b2, b3, b4⟩ := h b hb
    exact compare_le_iff a b a1 a2 a3 a4 b1 b2 b3 b4
  rw [e]
  exact ⟨List.sorted_insertionSort record_le found, List.perm_insertionSort record_le found⟩

theorem last_writer_some (L k : Nat) :
    ∀ (recs : List x) (w : x), last_writer L recs k = some w → w ∈ recs ∧ covers L k w := by
  intro recs
  induction recs with
  | nil => intro w h; simp [last_writer] at h
  | cons r rest ih =>
    intro w h
    unfold last_writer at h
    cases hrest : last_writer L rest k with
    | some w1 =>
      rw [hrest] at h
      simp only [Option.some.injEq] at h
      subst h
      exact ⟨List.mem_cons_of_mem _ (ih _ hrest).1, (ih _ hrest).2⟩
    | none =>
      rw [hrest] at h
      simp only at h
      by_cases hc : covers L k r
      · rw [if_pos hc] at h
        simp only [Option.some.injEq] at h
        subst h
        exact ⟨List.mem_cons_self _ _, hc⟩
      · rw [if_neg hc] at h
        cases h

theorem last_writer_none (L k : Nat) :
    ∀ (recs : List x), last_writer L recs k = none → ∀ r ∈ recs, ¬ covers L k r := by
  intro recs
  induction recs with
  | nil => intro _ r hr; simp at hr
  | cons r rest ih =>
    intro h a ha
    unfold last_writer at h
    cases hrest : last_writer L rest k with
    | some w1 =>
      rw [hrest] at h
      cases h
    | none =>
      rw [hrest] at h
      simp only at h
      rcases List.mem_cons.mp ha with rfl | ha
      · intro hc
        rw [if_pos hc] at h
        cases h
      · exact ih hrest a ha

/-- In a sorted array the last record whose span holds the byte `k` is the greatest of
the records whose span holds it. -/
theorem last_writer_max (L k : Nat) :
    ∀ (recs : List x) (w : x), List.Pairwise record_le recs → last_writer L recs k = some w →
      ∀ a ∈ recs, covers L k a → record_le a w := by
  intro recs
  induction recs with
  | nil => intro w _ _ a ha; simp at ha
  | cons r rest ih =>
    intro w hp h a ha hc
    rw [List.pairwise_cons] at hp
    unfold last_writer at h
    cases hrest : last_writer L rest k with
    | some w1 =>
      rw [hrest] at h
      simp only [Option.some.injEq] at h
      subst h
      rcases List.mem_cons.mp ha with rfl | ha
      · exact hp.1 _ (last_writer_some L k rest _ hrest).1
      · exact ih _ hp.2 hrest a ha hc
    | none =>
      rw [hrest] at h
      simp only at h
      rcases List.mem_cons.mp ha with rfl | ha
      · rw [if_pos hc] at h
        simp only [Option.some.injEq] at h
        subst h
        unfold record_le; omega
      · exact absurd hc (last_writer_none L k rest hrest a ha)

theorem write_at_length (out : List Char) (off L : Nat) (c : Char)
    (h : off + L ≤ out.length) :
    (write_at out off (List.replicate L c)).length = out.length := by
  unfold write_at
  by_cases h0 : List.replicate L c = []
  · rw [if_pos h0]
  · rw [if_neg h0]
    simp only [List.length_append, List.length_take, List.length_replicate, List.length_drop]
    omega

theorem write_at_getElem (out : List Char) (off L : Nat) (c : Char)
    (h : off + L ≤ out.length) (k : Nat) :
    (write_at out off (List.replicate L c))[k]? =
      if off ≤ k ∧ k < off + L then some c else out[k]? := by
  unfold write_at
  by_cases h0 : List.replicate L c = []
  · rw [if_pos h0]
    have : L = 0 := by
      cases L with
      | zero => rfl
      | succ n => simp [List.replicate] at h0
    rw [if_neg (by omega)]
  · rw [if_neg h0]
    have h1 : off - out.length = 0 := by omega
    rw [h1]
    simp only [List.replicate_zero, List.append_nil, List.length_replicate]
    by_cases hk1 : k < off
    · rw [if_neg (by omega), List.append_assoc, List.getElem?_append_left,
        List.getElem?_take, if_pos hk1]
      rw [List.length_take]; omega
    · rw [List.append_assoc, List.getElem?_append_right (by rw [List.length_take]; omega)]
      have hlen : (List.take off out).length = off := by rw [List.length_take]; omega
      rw [hlen]
      by_cases hk2 : k < off + L
      · rw [if_pos ⟨by omega, hk2⟩, List.getElem?_append_left (by rw [List.length_replicate]; omega),
          List.getElem?_replicate, if_pos (by omega)]
      · rw [if_neg (by omega), List.getElem?_append_right (by rw [List.length_replicate]; omega),
          List.length_replicate, List.getElem?_drop]
        congr 1
        omega

theorem read_redact_chars (thread_id : Int) (h : 0 ≤ thread_id) :
    ∃ c, read REDACT_CHARS (Int.tmod thread_id 64) = some c ∧ c ∈ REDACT_CHARS ∧
      REDACT_CHARS[(thread_id % 64).toNat]? = some c := by
  have h1 : Int.tmod thread_id 64 = thread_id % 64 := Int.tmod_eq_emod h (by omega)
  have h2 : 0 ≤ thread_id % 64 := Int.emod_nonneg _ (by omega)
  have h3 : thread_id % 64 < 64 := Int.emod_lt_of_pos _ (by omega)
  have h4 : (thread_id % 64).toNat < REDACT_CHARS.length := by
    have : REDACT_CHARS.length = 64 := rfl
    omega
  refine ⟨REDACT_CHARS[(thread_id % 64).toNat], ?_, List.getElem_mem _, List.getElem?_eq_getElem h4⟩
  rw [h1, read, if_pos h2, List.get?_eq_getElem?, List.getElem?_eq_getElem h4]

theorem last_writer_cons (L k : Nat) (r : x) (rest : List x) :
    last_writer L (r :: rest) k =
      match last_writer L rest k with
      | some w => some w
      | none => if covers L k r then some r else none := rfl

/-- The redaction loop on records whose spans lie inside the file: it ends normally, the
file keeps its length, and each byte holds the character of the last record whose span
holds it, or what it held before if there is none. -/
theorem redact_loop_spec (L : Nat) :
    ∀ (recs : List x) (out : List Char),
      (∀ r ∈ recs, 0 ≤ r.thread_id ∧ 0 ≤ r.index ∧ r.index + L ≤ out.length) →
      ∃ out1, redact_loop L recs out = .ok out1 ∧ out1.length = out.length ∧
        ∀ k, out1[k]? =
          match last_writer L recs k with
          | some w => read REDACT_CHARS (Int.tmod w.thread_id 64)
          | none => out[k]? := by
  intro recs
  induction recs with
  | nil => intro out _; exact ⟨out, rfl, rfl, fun k => rfl⟩
  | cons r rest ih =>
    intro out h
    obtain ⟨h1, h2, h3⟩ := h r (List.mem_cons_self _ _)
    obtain ⟨c, hc, _, _⟩ := read_redact_chars r.thread_id h1
    have hoff : r.index.toNat + L ≤ out.length := by omega
    have hlen := write_at_length out r.index.toNat L c hoff
    obtain ⟨out1, e1, e2, e3⟩ := ih (write_at out r.index.toNat (List.replicate L c)) (by
      intro a ha
      rw [hlen]
      exact h a (List.mem_cons_of_mem _ ha))
    refine ⟨out1, ?_, by rw [e2, hlen], ?_⟩
    · unfold redact_loop
      rw [hc]
      simp only
      rw [if_neg (by omega)]
      exact e1
    · intro k
      rw [e3 k, last_writer_cons]
      cases hrest : last_writer L rest k with
      | some w => rfl
      | none =>
        simp only
        rw [write_at_getElem out r.index.toNat L c hoff k]
        have hcov : covers L k r ↔ (r.index.toNat ≤ k ∧ k < r.index.toNat + L) := by
          unfold covers; omega
        by_cases hk : covers L k r
        · rw [if_pos hk, if_pos (hcov.mp hk)]
          exact hc.symm
        · rw [if_neg hk, if_neg (fun h => hk (hcov.mpr h))]

/-- With an empty pattern the redaction loop writes nothing. -/
theorem redact_loop_zero :
    ∀ (recs : List x) (out out1 : List Char), redact_loop 0 recs out = .ok out1 → out1 = out := by
  intro recs
  induction recs with
  | nil =>
    intro out out1 h
    injection h with h
    exact h.symm
  | cons r rest ih =>
    intro out out1 h
    unfold redact_loop at h
    cases hc : read REDACT_CHARS (Int.tmod r.thread_id 64) with
    | none => rw [hc] at h; cases h
    | some c =>
      rw [hc] at h
      simp only at h
      by_cases hi : r.index < 0
      · rw [if_pos hi] at h; cases h
      · rw [if_neg hi] at h
        have := ih _ _ h
        rw [this]
        simp [write_at]

theorem main_unfold (argv1 argv2 input out : List Char) (h : main argv1 argv2 input = .ok out) :
    size_check_fails input.length argv2.length = false ∧
    ∃ (P : Int) (found : List x), arg_to_num input.length argv1 = some P ∧
      main_scan P argv2 input = .ok found ∧
      redact_loop argv2.length (qsort found) input = .ok out := by
  unfold main at h
  cases hs : size_check_fails input.length argv2.length with
  | true => rw [hs] at h; simp at h
  | false =>
    rw [hs] at h
    simp only [Bool.false_eq_true, if_false] at h
    refine ⟨rfl, ?_⟩
    cases hP : arg_to_num input.length argv1 with
    | none => rw [hP] at h; cases h
    | some P =>
      rw [hP] at h
      simp only at h
      cases hscan : main_scan P argv2 input with
      | error e => rw [hscan] at h; cases h
      | ok found =>
        rw [hscan] at h
        exact ⟨P, found, rfl, hscan, h⟩

theorem arg_to_num_range (N : Int) (arg : List Char) (P : Int)
    (h : arg_to_num N arg = some P) : 0 ≤ P ∧ P < N := by
  unfold arg_to_num at h
  simp only at h
  split_ifs at h with hc
  injection h with h
  subst h
  omega

theorem size_check_passes (N L : Int) (hN1 : 1 ≤ N) (hN2 : N < 9223372036854775808)
    (h : size_check_fails N L = false) : L ≤ N - 1 := by
  unfold size_check_fails to_size_t at h
  simp only [decide_eq_false_iff_not] at h
  omega

theorem main_scan_zero (pat buf : List Char) :
    main_scan 0 pat buf = .error .division_by_zero := rfl

/-- What an accepted run does, for a non-empty pattern and a file below 2^30 bytes:
the worker count `P` satisfies `1 ≤ P < N`, the pattern is shorter than the file, `found`
holds exactly the occurrences that end before the last byte, the sorted array is ordered
by offset then worker, and each byte of the output holds the character of the last
sorted record whose span holds it, or the input byte if there is none. -/
theorem run_spec (argv1 argv2 input out : List Char) (P : Int) (found : List x)
    (hL : 1 ≤ argv2.length) (hN : input.length < 1073741824)
    (hsize : size_check_fails input.length argv2.length = false)
    (hP : arg_to_num input.length argv1 = some P)
    (hscan : main_scan P argv2 input = .ok found)
    (hred : redact_loop argv2.length (qsort found) input = .ok out) :
    1 ≤ P ∧ P < input.length ∧ argv2.length < input.length ∧
    (∀ r ∈ found, 0 ≤ r.thread_id ∧ r.thread_id < P ∧
      ∃ a : Nat, r.index = a ∧ scanned_occurrence input argv2 a) ∧
    (∀ a : Nat, scanned_occurrence input argv2 a → ∃ r ∈ found, r.index = a) ∧
    List.Pairwise record_le (qsort found) ∧
    (∀ r, r ∈ qsort found ↔ r ∈ found) ∧
    out.length = input.length ∧
    ∀ k, out[k]? =
      match last_writer argv2.length (qsort found) k with
      | some w => read REDACT_CHARS (Int.tmod w.thread_id 64)
      | none => input[k]? := by
  obtain ⟨hP0, hPN⟩ := arg_to_num_range _ _ _ hP
  have hP1 : 1 ≤ P := by
    by_contra h
    have : P = 0 := by omega
    subst this
    rw [main_scan_zero] at hscan
    cases hscan
  have hLN := size_check_passes input.length argv2.length (by omega) (by omega) hsize
  have hPe : P = ((P.toNat : Nat) : Int) := (Int.toNat_of_nonneg hP0).symm
  rw [hPe] at hscan
  obtain ⟨_, hf1, hf2⟩ := main_scan_found input argv2 P.toNat found hL (by omega) (by omega)
    (by omega) hN hscan
  have hrange : ∀ r ∈ found, 0 ≤ r.index ∧ r.index < 2147483648 ∧ 0 ≤ r.thread_id ∧
      r.thread_id < 2147483648 := by
    intro r hr
    obtain ⟨h1, h2, a, h3, h4⟩ := hf1 r hr
    have := h4.1
    omega
  obtain ⟨hsorted, hperm⟩ := qsort_spec found hrange
  have hmem : ∀ r, r ∈ qsort found ↔ r ∈ found := fun r => hperm.mem_iff
  obtain ⟨out1, e1, e2, e3⟩ := redact_loop_spec argv2.length (qsort found) input (by
    intro r hr
    obtain ⟨h1, h2, a, h3, h4⟩ := hf1 r ((hmem r).mp hr)
    have := h4.1
    omega)
  rw [e1] at hred
  injection hred with hred
  subst hred
  refine ⟨hP1, hPN, by omega, ?_, hf2, hsorted, hmem, e2, e3⟩
  intro r hr
  obtain ⟨h1, h2, h3⟩ := hf1 r hr
  exact ⟨h1, by omega, h3⟩

theorem main_run (argv1 argv2 input out : List Char) (P : Int) (found : List x)
    (hP : arg_to_num input.length argv1 = some P)
    (hscan : main_scan P argv2 input = .ok found)
    (hrun : main argv1 argv2 input = .ok out) :
    size_check_fails input.length argv2.length = false ∧
      redact_loop argv2.length (qsort found) input = .ok out := by
  obtain ⟨h1, P1, found1, h2, h3, h4⟩ := main_unfold argv1 argv2 input out hrun
  rw [hP] at h2
  injection h2 with h2
  subst h2
  rw [hscan] at h3
  injection h3 with h3
  subst h3
  exact ⟨h1, h4⟩

/-- The bytes of the output of an accepted run: a byte in no recorded span is the input
byte; a byte in the span of a record `r` holds the redaction character of a record `w`
that is not before `r` in the sorted array and whose span holds the byte too. -/
theorem run_bytes (argv1 argv2 input out : List Char) (P : Int) (found : List x)
    (hL : 1 ≤ argv2.length) (hN : input.length < 1073741824)
    (hsize : size_check_fails input.length argv2.length = false)
    (hP : arg_to_num input.length argv1 = some P)
    (hscan : main_scan P argv2 input = .ok found)
    (hred : redact_loop argv2.length (qsort found) input = .ok out) (k : Nat) :
    ((∀ r ∈ found, ¬ covers argv2.length k r) → out[k]? = input[k]?) ∧
    (∀ r ∈ found, covers argv2.length k r →
      ∃ w ∈ found, covers argv2.length k w ∧ record_le r w ∧
        out[k]? = REDACT_CHARS[(w.thread_id % 64).toNat]? ∧
        ∃ c, c ∈ REDACT_CHARS ∧ out[k]? = some c) := by
  obtain ⟨_, _, _, hf1, _, hsorted, hmem, _, hbytes⟩ :=
    run_spec argv1 argv2 input out P found hL hN hsize hP hscan hred
  have hk := hbytes k
  constructor
  · intro hno
    cases hw : last_writer argv2.length (qsort found) k with
    | none => rw [hw] at hk; exact hk
    | some w =>
      obtain ⟨h1, h2⟩ := last_writer_some _ _ _ _ hw
      exact absurd h2 (hno w ((hmem w).mp h1))
  · intro r hr hc
    cases hw : last_writer argv2.length (qsort found) k with
    | none => exact absurd hc (last_writer_none _ _ _ hw r ((hmem r).mpr hr))
    | some w =>
      rw [hw] at hk
      simp only at hk
      obtain ⟨h1, h2⟩ := last_writer_some _ _ _ _ hw
      have h3 := last_writer_max _ _ _ _ hsorted hw r ((hmem r).mpr hr) hc
      obtain ⟨c, hc1, hc2, hc3⟩ := read_redact_chars w.thread_id (hf1 w ((hmem w).mp h1)).1
      refine ⟨w, (hmem w).mp h1, h2, h3, ?_, c, hc2, ?_⟩
      · rw [hk, hc1, hc3]
      · rw [hk, hc1]

/-! ## The claims of the specification -/

/-- The offsets recorded in `found` by the workers of an accepted run are the offsets
of the occurrences of the pattern that end before the last byte of the buffer. -/
theorem found_positions (buffer pattern : List Char) (P : Nat) (found : List x)
    (hL : 1 ≤ pattern.length) (hLN : pattern.length + 1 ≤ buffer.length)
    (hP : 1 ≤ P) (hPN : P + 1 ≤ buffer.length) (hN : buffer.length < 1073741824)
    (hrun : main_scan P pattern buffer = .ok found) (i : Int) :
    (∃ r ∈ found, r.index = i) ↔
      (0 ≤ i ∧ i + pattern.length ≤ (buffer.length : Int) - 1 ∧
        occurs buffer pattern i.toNat) := by
  obtain ⟨_, h1, h2⟩ := main_scan_found buffer pattern P found hL (by omega) hP (by omega) hN hrun
  constructor
  · rintro ⟨r, hr, rfl⟩
    obtain ⟨_, _, a, ha, hs⟩ := h1 r hr
    rw [ha]
    have := hs.1
    refine ⟨by omega, by omega, ?_⟩
    rw [Int.toNat_ofNat]
    exact hs.2
  · rintro ⟨h3, h4, h5⟩
    obtain ⟨r, hr, hi⟩ := h2 i.toNat ⟨by omega, h5⟩
    exact ⟨r, hr, by omega⟩

/-- C1 (counterexample): on the buffer "aaabaaab" with the pattern "aaab" and 2 workers
`found` holds the offset 0 only, although the pattern also occurs at the last valid
starting offset 4 = N - L. -/
theorem C1_last_offset_not_recorded :
    main_scan 2 boundary_pattern boundary_buffer = .ok [{ thread_id := 0, index := 0 }] ∧
    occurs boundary_buffer boundary_pattern 4 ∧
    4 + boundary_pattern.length ≤ boundary_buffer.length :=
  ⟨rfl, by decide, by decide⟩

/-- C1 (amended): for every buffer of length N below 2^30, every pattern of length L ≥ 1
that passes the size check (L ≤ N - 1) and every worker count P ≥ 1 that `arg_to_num`
accepts (P ≤ N - 1), when the workers end with `found` inside its storage the set of
offsets recorded in `found` is exactly the set of offsets i with i + L ≤ N - 1 at which
buffer[i .. i+L) equals the pattern byte for byte. -/
theorem C1_found_positions (argv1 buffer pattern : List Char) (P : Int) (found : List x)
    (hL : 1 ≤ pattern.length) (hN : buffer.length < 1073741824)
    (hsize : size_check_fails buffer.length pattern.length = false)
    (hP : arg_to_num buffer.length argv1 = some P) (hP1 : 1 ≤ P)
    (hrun : main_scan P pattern buffer = .ok found) (i : Int) :
    (∃ r ∈ found, r.index = i) ↔
      (0 ≤ i ∧ i + pattern.length ≤ (buffer.length : Int) - 1 ∧
        occurs buffer pattern i.toNat) := by
  obtain ⟨_, hPN⟩ := arg_to_num_range _ _ _ hP
  have hLN := size_check_passes buffer.length pattern.length (by omega) (by omega) hsize
  have hPe : P = ((P.toNat : Nat) : Int) := (Int.toNat_of_nonneg (by omega)).symm
  rw [hPe] at hrun
  exact found_positions buffer pattern P.toNat found hL (by omega) (by omega) (by omega) hN hrun i

/-- C1 (witness): the amended claim on "aaabaaab", "aaab" and 2 workers, at offset 0. -/
theorem C1_found_positions_witness :
    main_scan 2 boundary_pattern boundary_buffer = .ok [{ thread_id := 0, index := 0 }] ∧
    ((∃ r ∈ [({ thread_id := 0, index := 0 } : x)], r.index = 0) ↔
      ((0 : Int) ≤ 0 ∧ (0 : Int) + boundary_pattern.length ≤ (boundary_buffer.length : Int) - 1 ∧
        occurs boundary_buffer boundary_pattern (0 : Int).toNat)) :=
  ⟨rfl, C1_found_positions ['2'] boundary_buffer boundary_pattern 2 _ (by decide) (by decide)
    (by decide) (by decide) (by decide) rfl 0⟩

/-- C2: for every buffer below 2^30 bytes, every non-empty pattern that passes the size
check and every worker count P ≥ 1 that `arg_to_num` accepts, when both scans end with
`found` inside its storage, the set of offsets recorded by the P-worker scan is the set
of offsets recorded by the single-worker scan. -/
theorem C2_same_offsets_as_single_worker (argv1 buffer pattern : List Char) (P : Int)
    (found1 foundP : List x)
    (hL : 1 ≤ pattern.length) (hN : buffer.length < 1073741824)
    (hsize : size_check_fails buffer.length pattern.length = false)
    (hP : arg_to_num buffer.length argv1 = some P) (hP1 : 1 ≤ P)
    (hrun1 : main_scan 1 pattern buffer = .ok found1)
    (hrunP : main_scan P pattern buffer = .ok foundP) (i : Int) :
    (∃ r ∈ foundP, r.index = i) ↔ (∃ r ∈ found1, r.index = i) := by
  obtain ⟨_, hPN⟩ := arg_to_num_range _ _ _ hP
  have hLN := size_check_passes buffer.length pattern.length (by omega) (by omega) hsize
  have hPe : P = ((P.toNat : Nat) : Int) := (Int.toNat_of_nonneg (by omega)).symm
  rw [hPe] at hrunP
  have h1 : main_scan ((1 : Nat) : Int) pattern buffer = .ok found1 := hrun1
  rw [found_positions buffer pattern P.toNat foundP hL (by omega) (by omega) (by omega) hN hrunP i,
    found_positions buffer pattern 1 found1 hL (by omega) (le_refl 1) (by omega) hN h1 i]

/-- C2 (witness): "aaaab" and "aa" with 2 workers and with 1 worker, at offset 2, which
both workers of the first scan record. -/
theorem C2_same_offsets_as_single_worker_witness :
    main_scan 1 overlap_pattern overlap_buffer =
      .ok [{ thread_id := 0, index := 0 }, { thread_id := 0, index := 1 },
        { thread_id := 0, index := 2 }] ∧
    main_scan 2 overlap_pattern overlap_buffer =
      .ok [{ thread_id := 0, index := 0 }, { thread_id := 0, index := 1 },
        { thread_id := 0, index := 2 }, { thread_id := 1, index := 2 }] ∧
    ((∃ r ∈ [({ thread_id := 0, index := 0 } : x), { thread_id := 0, index := 1 },
        { thread_id := 0, index := 2 }, { thread_id := 1, index := 2 }], r.index = 2) ↔
      (∃ r ∈ [({ thread_id := 0, index := 0 } : x), { thread_id := 0, index := 1 },
        { thread_id := 0, index := 2 }], r.index = 2)) :=
  ⟨rfl, rfl, C2_same_offsets_as_single_worker ['2'] overlap_buffer overlap_pattern 2 _ _
    (by decide) (by decide) (by decide) (by decide) (by decide) rfl rfl 2⟩

/-- A record of `found` whose span holds the byte `k` is an occurrence of the pattern
whose span holds `k`. -/
theorem covers_occurrence (input pattern : List Char) (r : x) (k : Nat)
    (hr : ∃ a : Nat, r.index = a ∧ scanned_occurrence input pattern a)
    (hc : covers pattern.length k r) :
    ∃ p, scanned_occurrence input pattern p ∧ p ≤ k ∧ k < p + pattern.length := by
  obtain ⟨a, ha, hs⟩ := hr
  unfold covers at hc
  exact ⟨a, hs, by omega, by omega⟩

/-- C3: non-matched bytes are never altered: in an accepted run on a file below 2^30
bytes, a byte of the input that lies in the span of no occurrence of the pattern is the
same in the output. -/
theorem C3_unmatched_bytes_unchanged (argv1 argv2 input out : List Char)
    (hN : input.length < 1073741824) (hrun : main argv1 argv2 input = .ok out) (k : Nat)
    (hk : ∀ p, occurs input argv2 p → ¬ (p ≤ k ∧ k < p + argv2.length)) :
    out[k]? = input[k]? := by
  obtain ⟨hsize, P, found, hP, hscan, hred⟩ := main_unfold argv1 argv2 input out hrun
  rcases Nat.eq_zero_or_pos argv2.length with h0 | hL
  · rw [h0] at hred
    rw [redact_loop_zero _ _ _ hred]
  · obtain ⟨_, _, _, hf1, _⟩ := run_spec argv1 argv2 input out P found hL hN hsize hP hscan hred
    apply (run_bytes argv1 argv2 input out P found hL hN hsize hP hscan hred k).1
    intro r hr hc
    obtain ⟨p, hp, h1, h2⟩ := covers_occurrence input argv2 r k (hf1 r hr).2.2 hc
    exact hk p hp.2 ⟨h1, h2⟩

/-- C3 (witness): with 2 workers, "aa" and "aaaab" the last byte, which is in no
occurrence of "aa", is kept. -/
theorem C3_unmatched_bytes_unchanged_witness :
    main ['2'] overlap_pattern overlap_buffer = .ok ['0', '0', '1', '1', 'b'] ∧
    ['0', '0', '1', '1', 'b'][4]? = overlap_buffer[4]? :=
  ⟨rfl, C3_unmatched_bytes_unchanged ['2'] overlap_pattern overlap_buffer _ (by decide) rfl 4
    (by
      intro p hp h
      have h2 : p = 3 ∨ p = 4 := by
        have : overlap_pattern.length = 2 := rfl
        omega
      rcases h2 with rfl | rfl
      · exact absurd hp (by decide)
      · exact absurd hp (by decide))⟩

/-- C4 (counterexample): with 2 workers, "aa" and "aaaab" the sorted `found` holds a
record at offset 1, and the bytes 1 and 2 of its span hold different characters in the
output "0011b". -/
theorem C4_span_with_two_characters :
    main_scan 2 overlap_pattern overlap_buffer =
      .ok [{ thread_id := 0, index := 0 }, { thread_id := 0, index := 1 },
        { thread_id := 0, index := 2 }, { thread_id := 1, index := 2 }] ∧
    ({ thread_id := 0, index := 1 } : x) ∈
      qsort [{ thread_id := 0, index := 0 }, { thread_id := 0, index := 1 },
        { thread_id := 0, index := 2 }, { thread_id := 1, index := 2 }] ∧
    main ['2'] overlap_pattern overlap_buffer = .ok ['0', '0', '1', '1', 'b'] ∧
    ['0', '0', '1', '1', 'b'][1]? = some '0' ∧ ['0', '0', '1', '1', 'b'][2]? = some '1' :=
  ⟨rfl, by decide, rfl, rfl, rfl⟩

/-- C4 (amended): in an accepted run on a file below 2^30 bytes, for every record of the
sorted `found`, each of the len(pattern) output bytes of its span is a character of
REDACT_CHARS; they are all the character of the record itself when every record whose
offset lies in that span has the same thread_id modulo 64. -/
theorem C4_redacted_span (argv1 argv2 input out : List Char) (P : Int) (found : List x)
    (hN : input.length < 1073741824)
    (hP : arg_to_num input.length argv1 = some P)
    (hscan : main_scan P argv2 input = .ok found)
    (hrun : main argv1 argv2 input = .ok out) (r : x) (hr : r ∈ qsort found) :
    (∀ j, j < argv2.length → ∃ c, c ∈ REDACT_CHARS ∧ out[r.index.toNat + j]? = some c) ∧
    ((∀ s ∈ found, r.index ≤ s.index → s.index < r.index + argv2.length →
        s.thread_id % 64 = r.thread_id % 64) →
      ∀ j, j < argv2.length →
        out[r.index.toNat + j]? = REDACT_CHARS[(r.thread_id % 64).toNat]?) := by
  obtain ⟨hsize, hred⟩ := main_run argv1 argv2 input out P found hP hscan hrun
  rcases Nat.eq_zero_or_pos argv2.length with h0 | hL
  · rw [h0]
    exact ⟨fun j hj => absurd hj (Nat.not_lt_zero j), fun _ j hj => absurd hj (Nat.not_lt_zero j)⟩
  · obtain ⟨_, _, _, hf1, _, _, hmem, _⟩ :=
      run_spec argv1 argv2 input out P found hL hN hsize hP hscan hred
    have hrf := (hmem r).mp hr
    obtain ⟨_, _, a, ha, _⟩ := hf1 r hrf
    have hcov : ∀ j, j < argv2.length → covers argv2.length (r.index.toNat + j) r := by
      intro j hj
      unfold covers
      omega
    constructor
    · intro j hj
      obtain ⟨w, _, _, _, _, hc⟩ :=
        (run_bytes argv1 argv2 input out P found hL hN hsize hP hscan hred _).2 r hrf (hcov j hj)
      exact hc
    · intro hsame j hj
      obtain ⟨w, hw, hwc, hle, hbyte, _⟩ :=
        (run_bytes argv1 argv2 input out P found hL hN hsize hP hscan hred _).2 r hrf (hcov j hj)
      rw [hbyte]
      have h1 : r.index ≤ w.index := by
        unfold record_le at hle; omega
      have h2 : w.index < r.index + argv2.length := by
        unfold covers at hwc; omega
      rw [hsame w hw h1 h2]

/-- C4 (witness): with 1 worker, "aa" and "aaaab", the span of the record at offset 1
holds the character of worker 0. -/
theorem C4_redacted_span_witness :
    main ['1'] overlap_pattern overlap_buffer = .ok ['0', '0', '0', '0', 'b'] ∧
    (∀ j, j < overlap_pattern.length →
      ['0', '0', '0', '0', 'b'][({ thread_id := 0, index := 1 } : x).index.toNat + j]? =
        REDACT_CHARS[(({ thread_id := 0, index := 1 } : x).thread_id % 64).toNat]?) :=
  ⟨rfl, (C4_redacted_span ['1'] overlap_pattern overlap_buffer _ 1
    [{ thread_id := 0, index := 0 }, { thread_id := 0, index := 1 },
      { thread_id := 0, index := 2 }] (by decide) (by decide) rfl rfl
    { thread_id := 0, index := 1 } (by decide)).2 (by decide)⟩

/-- C5: in an accepted run with a non-empty pattern on a file below 2^30 bytes, for every
offset at which a match is recorded in `found`, the output byte at that offset is
REDACT_CHARS[w mod 64], w being the highest thread_id among the records of that offset. -/
theorem C5_highest_worker_wins (argv1 argv2 input out : List Char) (P : Int) (found : List x)
    (hL : 1 ≤ argv2.length) (hN : input.length < 1073741824)
    (hP : arg_to_num input.length argv1 = some P)
    (hscan : main_scan P argv2 input = .ok found)
    (hrun : main argv1 argv2 input = .ok out) (r : x) (hr : r ∈ found)
    (hmax : ∀ s ∈ found, s.index = r.index → s.thread_id ≤ r.thread_id) :
    ∃ c, REDACT_CHARS[(r.thread_id % 64).toNat]? = some c ∧ out[r.index.toNat]? = some c := by
  obtain ⟨hsize, hred⟩ := main_run argv1 argv2 input out P found hP hscan hrun
  obtain ⟨_, _, _, hf1, _⟩ := run_spec argv1 argv2 input out P found hL hN hsize hP hscan hred
  obtain ⟨_, _, a, ha, _⟩ := hf1 r hr
  have hcov : covers argv2.length r.index.toNat r := by
    unfold covers; omega
  obtain ⟨w, hw, hwc, hle, hbyte, c, _, hc⟩ :=
    (run_bytes argv1 argv2 input out P found hL hN hsize hP hscan hred _).2 r hr hcov
  have h1 : w.index = r.index := by
    unfold record_le at hle
    unfold covers at hwc
    omega
  have h2 : w.thread_id = r.thread_id := by
    have := hmax w hw h1
    unfold record_le at hle
    omega
  rw [h2] at hbyte
  exact ⟨c, by rw [← hbyte, hc], hc⟩

/-- C5 (witness): with 2 workers, "aa" and "aaaab", offset 2 is recorded by the workers 0
and 1, and the output byte at offset 2 is REDACT_CHARS[1]. -/
theorem C5_highest_worker_wins_witness :
    main ['2'] overlap_pattern overlap_buffer = .ok ['0', '0', '1', '1', 'b'] ∧
    ∃ c, REDACT_CHARS[(({ thread_id := 1, index := 2 } : x).thread_id % 64).toNat]? = some c ∧
      ['0', '0', '1', '1', 'b'][({ thread_id := 1, index := 2 } : x).index.toNat]? = some c :=
  ⟨rfl, C5_highest_worker_wins ['2'] overlap_pattern overlap_buffer _ 2
    [{ thread_id := 0, index := 0 }, { thread_id := 0, index := 1 },
      { thread_id := 0, index := 2 }, { thread_id := 1, index := 2 }]
    (by decide) (by decide) (by decide) rfl rfl { thread_id := 1, index := 2 } (by decide)
    (by decide)⟩

/-- The output of an accepted run on a file below 2^30 bytes has the length of the input;
a byte in the span of an occurrence of the pattern that ends before the last byte holds a
character of REDACT_CHARS, and any other byte is the input byte. -/
theorem run_output (argv1 argv2 input out : List Char) (hN : input.length < 1073741824)
    (hrun : main argv1 argv2 input = .ok out) :
    out.length = input.length ∧
    ∀ k,
      ((∃ p, scanned_occurrence input argv2 p ∧ p ≤ k ∧ k < p + argv2.length) →
        ∃ c, c ∈ REDACT_CHARS ∧ out[k]? = some c) ∧
      ((¬ ∃ p, scanned_occurrence input argv2 p ∧ p ≤ k ∧ k < p + argv2.length) →
        out[k]? = input[k]?) := by
  obtain ⟨hsize, P, found, hP, hscan, hred⟩ := main_unfold argv1 argv2 input out hrun
  rcases Nat.eq_zero_or_pos argv2.length with h0 | hL
  · rw [h0] at hred
    rw [redact_loop_zero _ _ _ hred, h0]
    refine ⟨rfl, fun k => ⟨?_, fun _ => rfl⟩⟩
    rintro ⟨p, _, h1, h2⟩
    omega
  · obtain ⟨_, _, _, hf1, hf2, _, _, hlen, _⟩ :=
      run_spec argv1 argv2 input out P found hL hN hsize hP hscan hred
    refine ⟨hlen, fun k => ⟨?_, ?_⟩⟩
    · rintro ⟨p, hp, h1, h2⟩
      obtain ⟨r, hr, hi⟩ := hf2 p hp
      have hc : covers argv2.length k r := by
        unfold covers; omega
      obtain ⟨w, _, _, _, _, hc⟩ :=
        (run_bytes argv1 argv2 input out P found hL hN hsize hP hscan hred k).2 r hr hc
      exact hc
    · intro hno
      apply (run_bytes argv1 argv2 input out P found hL hN hsize hP hscan hred k).1
      intro r hr hc
      exact hno (covers_occurrence input argv2 r k (hf1 r hr).2.2 hc)

/-- C6 (counterexample): on "ababc" with the pattern "ab" the output is "0000c" with 1
worker and "0011c" with 2 workers, and the worker count 5 = len(buffer) is rejected. -/
theorem C6_output_depends_on_worker_count :
    main ['1'] plain_pattern plain_buffer = .ok ['0', '0', '0', '0', 'c'] ∧
    main ['2'] plain_pattern plain_buffer = .ok ['0', '0', '1', '1', 'c'] ∧
    main ['5'] plain_pattern plain_buffer = .error .invalid_number_of_threads :=
  ⟨rfl, rfl, rfl⟩

/-- C6 (amended): for a fixed buffer below 2^30 bytes and a fixed pattern, the outputs of
two accepted runs with different worker counts have the same length, both hold a character
of REDACT_CHARS at every byte in the span of an occurrence that ends before the last
byte, and both hold the input byte everywhere else. -/
theorem C6_same_redacted_positions (argv1 argv1b argv2 input out outb : List Char)
    (hN : input.length < 1073741824)
    (hrun : main argv1 argv2 input = .ok out) (hrunb : main argv1b argv2 input = .ok outb) :
    out.length = outb.length ∧
    ∀ k,
      ((∃ p, scanned_occurrence input argv2 p ∧ p ≤ k ∧ k < p + argv2.length) →
        (∃ c, c ∈ REDACT_CHARS ∧ out[k]? = some c) ∧
        (∃ c, c ∈ REDACT_CHARS ∧ outb[k]? = some c)) ∧
      ((¬ ∃ p, scanned_occurrence input argv2 p ∧ p ≤ k ∧ k < p + argv2.length) →
        out[k]? = outb[k]?) := by
  obtain ⟨h1, h2⟩ := run_output argv1 argv2 input out hN hrun
  obtain ⟨h3, h4⟩ := run_output argv1b argv2 input outb hN hrunb
  refine ⟨by rw [h1, h3], fun k => ⟨fun h => ⟨(h2 k).1 h, (h4 k).1 h⟩, fun h => ?_⟩⟩
  rw [(h2 k).2 h, (h4 k).2 h]

/-- C6 (witness): the outputs "0000c" and "0011c" of 1 and 2 workers on "ababc" and
"ab". -/
theorem C6_same_redacted_positions_witness :
    main ['1'] plain_pattern plain_buffer = .ok ['0', '0', '0', '0', 'c'] ∧
    main ['2'] plain_pattern plain_buffer = .ok ['0', '0', '1', '1', 'c'] ∧
    ['0', '0', '0', '0', 'c'].length = ['0', '0', '1', '1', 'c'].length :=
  ⟨rfl, rfl, (C6_same_redacted_positions ['1'] ['2'] plain_pattern plain_buffer _ _
    (by decide) rfl rfl).1⟩

set_option maxRecDepth 100000 in
/-- C7 (failing input): a file of 252 bytes 'a', the pattern "a" and 1 worker: the worker
finds 251 occurrences and the write `found[250]` is outside the 250 allocated records. -/
theorem C7_found_overflow :
    main ['1'] ['a'] (List.replicate 252 'a') = .error .found_overflow ∧
    (all_hits (List.replicate 252 'a') ['a'] 1).length = FOUND_CAPACITY + 1 :=
  ⟨rfl, by decide⟩

/-- C8 (failing input): `arg_to_num` returns 0 for the arguments "0" and "abc" and 1 for
"4294967297", and with 0 workers `main` divides by zero in `distribute_file`. -/
theorem C8_zero_workers_accepted :
    arg_to_num 5 ['0'] = some 0 ∧ arg_to_num 5 ['a', 'b', 'c'] = some 0 ∧
    arg_to_num 5 ['4', '2', '9', '4', '9', '6', '7', '2', '9', '7'] = some 1 ∧
    main ['0'] plain_pattern plain_buffer = .error .division_by_zero :=
  ⟨by decide, by decide, by decide, rfl⟩

/-- C9 (counterexample): a file of 4 bytes and a pattern of 4 bytes are rejected by the
size check although the pattern is not longer than the file, and an empty file passes the
check with a pattern of 1 byte. -/
theorem C9_equal_lengths_rejected :
    size_check_fails 4 4 = true ∧
    main ['1'] ['a', 'b', 'a', 'b'] ['a', 'b', 'a', 'b'] = .error .pattern_larger_than_file ∧
    size_check_fails 0 1 = false :=
  ⟨by decide, rfl, by decide⟩

/-- C9 (amended): for every input length N ≥ 1 (an `intmax_t`) and every pattern length L,
the size check of `main` fails exactly when L > N - 1, and passes whenever N - 1 ≥ L. -/
theorem C9_size_check (N L : Nat) (hN1 : 1 ≤ N) (hN2 : N < 9223372036854775808) :
    size_check_fails N L = true ↔ (N : Int) - 1 < L := by
  unfold size_check_fails to_size_t
  simp only [decide_eq_true_eq]
  omega

/-- C9 (witness): a file of 5 bytes and a pattern of 2 bytes pass the check. -/
theorem C9_size_check_witness :
    1 ≤ 5 ∧ (size_check_fails (5 : Nat) (2 : Nat) = true ↔ ((5 : Nat) : Int) - 1 < (2 : Nat)) :=
  ⟨by decide, C9_size_check 5 2 (by decide) (by decide)⟩

/-- An accepted run with a non-empty pattern on a file below 2^30 bytes ends normally
and gives an output as soon as the workers end with `found` inside its storage. -/
theorem main_ok_of_scan (argv1 argv2 input : List Char) (P : Int) (found : List x)
    (hL : 1 ≤ argv2.length) (hN : input.length < 1073741824)
    (hsize : size_check_fails input.length argv2.length = false)
    (hP : arg_to_num input.length argv1 = some P)
    (hscan : main_scan P argv2 input = .ok found) :
    ∃ out, main argv1 argv2 input = .ok out := by
  obtain ⟨hP0, hPN⟩ := arg_to_num_range _ _ _ hP
  have hP1 : 1 ≤ P := by
    by_contra h
    have : P = 0 := by omega
    subst this
    rw [main_scan_zero] at hscan
    cases hscan
  have hLN := size_check_passes input.length argv2.length (by omega) (by omega) hsize
  have hPe : P = ((P.toNat : Nat) : Int) := (Int.toNat_of_nonneg hP0).symm
  have hscan2 := hscan
  rw [hPe] at hscan2
  obtain ⟨_, hf1, _⟩ := main_scan_found input argv2 P.toNat found hL (by omega) (by omega)
    (by omega) hN hscan2
  have hrange : ∀ r ∈ found, 0 ≤ r.index ∧ r.index < 2147483648 ∧
      0 ≤ r.thread_id ∧ r.thread_id < 2147483648 := by
    intro r hr
    obtain ⟨h1, h2, a, h3, h4⟩ := hf1 r hr
    have := h4.1
    omega
  obtain ⟨_, hperm⟩ := qsort_spec _ hrange
  obtain ⟨out1, e1, _⟩ := redact_loop_spec argv2.length (qsort found) input (by
    intro r hr
    obtain ⟨h1, h2, a, h3, h4⟩ := hf1 r (hperm.mem_iff.mp hr)
    have := h4.1
    omega)
  refine ⟨out1, ?_⟩
  unfold main
  rw [hsize, hP]
  simp only [Bool.false_eq_true, if_false]
  rw [hscan]
  exact e1

/-- The workers of an accepted run with a non-empty pattern on a file below 2^30 bytes
end with `found` inside its storage when the records they store are at most 250. -/
theorem main_scan_ok_of_capacity (argv1 argv2 input : List Char) (P : Nat)
    (hL : 1 ≤ argv2.length) (hN : input.length < 1073741824)
    (hsize : size_check_fails input.length argv2.length = false)
    (hP : arg_to_num input.length argv1 = some (P : Int)) (hP1 : 1 ≤ P)
    (hcap : (all_hits input argv2 P).length ≤ FOUND_CAPACITY) :
    main_scan P argv2 input = .ok (all_hits input argv2 P) := by
  obtain ⟨_, hPN⟩ := arg_to_num_range _ _ _ hP
  have hLN := size_check_passes input.length argv2.length (by omega) (by omega) hsize
  have hscan := main_scan_eq input argv2 P hL (by omega) hP1 (by omega) hN
  rw [if_pos hcap] at hscan
  exact hscan

/-- C10: an accepted run on a file below 2^30 bytes whose workers end with `found` inside
its storage writes an output of exactly file_size bytes; with a non-empty pattern the run
does give an output, and every record of `found` has index ≥ 0 and
index + L ≤ file_size, so that no redaction write passes the end of the file. -/
theorem C10_length_preserved (argv1 argv2 input : List Char) (P : Int) (found : List x)
    (hN : input.length < 1073741824)
    (hsize : size_check_fails input.length argv2.length = false)
    (hP : arg_to_num input.length argv1 = some P)
    (hscan : main_scan P argv2 input = .ok found) :
    (∀ out, main argv1 argv2 input = .ok out → out.length = input.length) ∧
    (1 ≤ argv2.length →
      (∃ out, main argv1 argv2 input = .ok out) ∧
      ∀ r ∈ found, 0 ≤ r.index ∧ r.index + argv2.length ≤ input.length) := by
  refine ⟨fun out hrun => (run_output argv1 argv2 input out hN hrun).1, fun hL => ?_⟩
  obtain ⟨out, hrun⟩ := main_ok_of_scan argv1 argv2 input P found hL hN hsize hP hscan
  refine ⟨⟨out, hrun⟩, fun r hr => ?_⟩
  obtain ⟨_, hred⟩ := main_run argv1 argv2 input out P found hP hscan hrun
  obtain ⟨_, _, _, hf1, _⟩ := run_spec argv1 argv2 input out P found hL hN hsize hP hscan hred
  obtain ⟨_, _, a, ha, hs⟩ := hf1 r hr
  have := hs.1
  omega

/-- C10 (witness): with 2 workers, "aa" and "aaaab" the output "0011b" has 5 bytes. -/
theorem C10_length_preserved_witness :
    main ['2'] overlap_pattern overlap_buffer = .ok ['0', '0', '1', '1', 'b'] ∧
    ['0', '0', '1', '1', 'b'].length = overlap_buffer.length :=
  ⟨rfl, (C10_length_preserved ['2'] overlap_pattern overlap_buffer 2
    [{ thread_id := 0, index := 0 }, { thread_id := 0, index := 1 },
      { thread_id := 0, index := 2 }, { thread_id := 1, index := 2 }]
    (by decide) (by decide) (by decide) rfl).1 _ rfl⟩

/-! ## The claims of the specification, continued -/

/-- On records whose fields are non-negative `int`s the sign of `compare` is the
lexicographic order of the pairs (index, thread_id). -/
theorem compare_sign (a b : x) (ha1 : 0 ≤ a.index) (ha2 : a.index < 2147483648)
    (ha3 : 0 ≤ a.thread_id) (ha4 : a.thread_id < 2147483648)
    (hb1 : 0 ≤ b.index) (hb2 : b.index < 2147483648)
    (hb3 : 0 ≤ b.thread_id) (hb4 : b.thread_id < 2147483648) :
    (compare a b < 0 ↔
      (a.index < b.index ∨ (a.index = b.index ∧ a.thread_id < b.thread_id))) ∧
    (compare a b = 0 ↔ (a.index = b.index ∧ a.thread_id = b.thread_id)) ∧
    (0 < compare a b ↔
      (b.index < a.index ∨ (a.index = b.index ∧ b.thread_id < a.thread_id))) := by
  unfold compare to_int
  split_ifs <;> omega

/-- C11: for records whose int fields are non-negative, `compare(a, b)` is negative, zero
or positive exactly when (a.index, a.thread_id) is lexicographically less than, equal to
or greater than (b.index, b.thread_id); after the sort step `found` is a permutation of
the collected records, ordered by non-decreasing index, and by ascending thread_id for
the same index. -/
theorem C11_sorted_by_index_then_worker (found : List x)
    (h : ∀ r ∈ found, 0 ≤ r.index ∧ r.index < 2147483648 ∧ 0 ≤ r.thread_id ∧
      r.thread_id < 2147483648) :
    (∀ a ∈ found, ∀ b ∈ found,
      (compare a b < 0 ↔
        (a.index < b.index ∨ (a.index = b.index ∧ a.thread_id < b.thread_id))) ∧
      (compare a b = 0 ↔ (a.index = b.index ∧ a.thread_id = b.thread_id)) ∧
      (0 < compare a b ↔
        (b.index < a.index ∨ (a.index = b.index ∧ b.thread_id < a.thread_id)))) ∧
    (qsort found).Perm found ∧
    List.Pairwise
      (fun a b => a.index < b.index ∨ (a.index = b.index ∧ a.thread_id ≤ b.thread_id))
      (qsort found) := by
  refine ⟨fun a ha b hb => ?_, (qsort_spec found h).2, (qsort_spec found h).1⟩
  obtain ⟨a1, a2, a3, a4⟩ := h a ha
  obtain ⟨b1, b2, b3, b4⟩ := h b hb
  exact compare_sign a b a1 a2 a3 a4 b1 b2 b3 b4

/-- C11 (witness): the four records of the 2-worker scan of "aaaab" for "aa", stored in
another order, are sorted by offset, then by worker. -/
theorem C11_sorted_by_index_then_worker_witness :
    qsort [{ thread_id := 1, index := 2 }, { thread_id := 0, index := 2 },
        { thread_id := 0, index := 0 }, { thread_id := 0, index := 1 }] =
      [{ thread_id := 0, index := 0 }, { thread_id := 0, index := 1 },
        { thread_id := 0, index := 2 }, { thread_id := 1, index := 2 }] ∧
    (qsort [{ thread_id := 1, index := 2 }, { thread_id := 0, index := 2 },
        { thread_id := 0, index := 0 }, { thread_id := 0, index := 1 }]).Perm
      [{ thread_id := 1, index := 2 }, { thread_id := 0, index := 2 },
        { thread_id := 0, index := 0 }, { thread_id := 0, index := 1 }] :=
  ⟨by decide, (C11_sorted_by_index_then_worker
    [{ thread_id := 1, index := 2 }, { thread_id := 0, index := 2 },
      { thread_id := 0, index := 0 }, { thread_id := 0, index := 1 }] (by decide)).2.1⟩

/-- The records stored by the workers of an accepted run with a non-empty pattern on a
file below 2^30 bytes have non-negative `int` fields. -/
theorem scan_records_in_range (argv1 argv2 input : List Char) (P : Int) (found : List x)
    (hL : 1 ≤ argv2.length) (hN : input.length < 1073741824)
    (hsize : size_check_fails input.length argv2.length = false)
    (hP : arg_to_num input.length argv1 = some P)
    (hscan : main_scan P argv2 input = .ok found) :
    ∀ r ∈ found, 0 ≤ r.index ∧ r.index < 2147483648 ∧ 0 ≤ r.thread_id ∧
      r.thread_id < 2147483648 := by
  obtain ⟨hP0, hPN⟩ := arg_to_num_range _ _ _ hP
  have hP1 : 1 ≤ P := by
    by_contra h
    have : P = 0 := by omega
    subst this
    rw [main_scan_zero] at hscan
    cases hscan
  have hLN := size_check_passes input.length argv2.length (by omega) (by omega) hsize
  have hPe : P = ((P.toNat : Nat) : Int) := (Int.toNat_of_nonneg hP0).symm
  rw [hPe] at hscan
  obtain ⟨_, hf1, _⟩ := main_scan_found input argv2 P.toNat found hL (by omega) (by omega)
    (by omega) hN hscan
  intro r hr
  obtain ⟨h1, h2, a, h3, h4⟩ := hf1 r hr
  have := h4.1
  omega

/-- The output of `main` once the size check is passed, the worker count accepted and the
workers joined: the redaction loop run on the sorted `found`. -/
theorem main_eq_redact (argv1 argv2 input : List Char) (P : Int) (found : List x)
    (hsize : size_check_fails input.length argv2.length = false)
    (hP : arg_to_num input.length argv1 = some P)
    (hscan : main_scan P argv2 input = .ok found) :
    main argv1 argv2 input = redact_loop argv2.length (qsort found) input := by
  unfold main
  rw [hsize, hP]
  simp only [Bool.false_eq_true, if_false]
  rw [hscan]

/-- C12: the result does not depend on the order in which the workers store their matches:
for an accepted run (non-empty pattern, file below 2^30 bytes) and any array `found1` that
holds the records of `found` in another order, the sorted array is the same, any array
that holds the same records in sorted order is that array, and the redaction loop gives
the output of `main`. -/
theorem C12_worker_order_irrelevant (argv1 argv2 input : List Char) (P : Int)
    (found found1 : List x)
    (hL : 1 ≤ argv2.length) (hN : input.length < 1073741824)
    (hsize : size_check_fails input.length argv2.length = false)
    (hP : arg_to_num input.length argv1 = some P)
    (hscan : main_scan P argv2 input = .ok found)
    (hperm : found1.Perm found) :
    qsort found1 = qsort found ∧
    (∀ sorted : List x, sorted.Perm found → List.Pairwise record_le sorted →
      sorted = qsort found) ∧
    redact_loop argv2.length (qsort found1) input = main argv1 argv2 input := by
  have hr := scan_records_in_range argv1 argv2 input P found hL hN hsize hP hscan
  have hr1 : ∀ r ∈ found1, 0 ≤ r.index ∧ r.index < 2147483648 ∧ 0 ≤ r.thread_id ∧
      r.thread_id < 2147483648 := fun r h => hr r (hperm.mem_iff.mp h)
  obtain ⟨hs, hp⟩ := qsort_spec found hr
  obtain ⟨hs1, hp1⟩ := qsort_spec found1 hr1
  have e : qsort found1 = qsort found :=
    List.eq_of_perm_of_sorted ((hp1.trans hperm).trans hp.symm) hs1 hs
  refine ⟨e, fun sorted h1 h2 => ?_, ?_⟩
  · exact List.eq_of_perm_of_sorted (h1.trans hp.symm) h2 hs
  · rw [e, main_eq_redact argv1 argv2 input P found hsize hP hscan]

/-- C12 (witness): the records of the 2-worker scan of "aaaab" for "aa" with the record of
worker 1 stored first. -/
theorem C12_worker_order_irrelevant_witness :
    main ['2'] overlap_pattern overlap_buffer = .ok ['0', '0', '1', '1', 'b'] ∧
    qsort [{ thread_id := 1, index := 2 }, { thread_id := 0, index := 0 },
        { thread_id := 0, index := 1 }, { thread_id := 0, index := 2 }] =
      qsort [{ thread_id := 0, index := 0 }, { thread_id := 0, index := 1 },
        { thread_id := 0, index := 2 }, { thread_id := 1, index := 2 }] :=
  ⟨rfl, (C12_worker_order_irrelevant ['2'] overlap_pattern overlap_buffer 2
    [{ thread_id := 0, index := 0 }, { thread_id := 0, index := 1 },
      { thread_id := 0, index := 2 }, { thread_id := 1, index := 2 }]
    [{ thread_id := 1, index := 2 }, { thread_id := 0, index := 0 },
      { thread_id := 0, index := 1 }, { thread_id := 0, index := 2 }]
    (by decide) (by decide) (by decide) (by decide) rfl (by decide)).1⟩

/-- C13: redaction is idempotent: for every buffer and every match set of non-negative
worker ids whose spans lie inside the buffer, the redaction loop ends normally, and run
again on the buffer it produced, with the same match set, it gives that buffer back. -/
theorem C13_redaction_idempotent (pattern_size : Nat) (found : List x) (out : List Char)
    (h : ∀ r ∈ found, 0 ≤ r.thread_id ∧ 0 ≤ r.index ∧ r.index + pattern_size ≤ out.length) :
    ∃ out1, redact_loop pattern_size found out = .ok out1 ∧
      redact_loop pattern_size found out1 = .ok out1 := by
  obtain ⟨out1, e1, e2, e3⟩ := redact_loop_spec pattern_size found out h
  obtain ⟨out2, f1, f2, f3⟩ := redact_loop_spec pattern_size found out1 (by
    intro r hr
    rw [e2]
    exact h r hr)
  refine ⟨out1, e1, ?_⟩
  rw [f1]
  congr 1
  apply List.ext_getElem?
  intro k
  rw [f3 k, e3 k]
  cases last_writer pattern_size found k with
  | none => rfl
  | some w => rfl

/-- C13 (witness): the sorted records of the 2-worker scan of "aaaab" for "aa". -/
theorem C13_redaction_idempotent_witness :
    ∃ out1,
      redact_loop 2 [{ thread_id := 0, index := 0 }, { thread_id := 0, index := 1 },
        { thread_id := 0, index := 2 }, { thread_id := 1, index := 2 }] overlap_buffer
        = .ok out1 ∧
      redact_loop 2 [{ thread_id := 0, index := 0 }, { thread_id := 0, index := 1 },
        { thread_id := 0, index := 2 }, { thread_id := 1, index := 2 }] out1 = .ok out1 :=
  C13_redaction_idempotent 2 [{ thread_id := 0, index := 0 }, { thread_id := 0, index := 1 },
    { thread_id := 0, index := 2 }, { thread_id := 1, index := 2 }] overlap_buffer (by decide)

/-- The arrays `distribute` and `displs` in closed form, when `file_size + pattern_size`
fits in an `int`: `distribute[t]` is the nominal share of worker `t` plus
`pattern_size - 1` for every worker but the last, and `displs[t]` is the sum of the
nominal shares of the workers before `t`. -/
theorem partition_closed_form (N L : Int) (P : Nat) (hL : 1 ≤ L) (hP : 1 ≤ P) (hN1 : 1 ≤ N)
    (hb : N + L < 2147483648) :
    distribute_file (N - 1) L P =
      .ok (distribute_file_loop ((N - 1) / P) L P P 0 ((N - 1) % P)) ∧
    ∀ t, t < P →
      (distribute_file_loop ((N - 1) / P) L P P 0 ((N - 1) % P)).getD t 0 =
        share ((N - 1) / P) ((N - 1) % P) t + (if t + 1 < P then L - 1 else 0) ∧
      (displacment (distribute_file_loop ((N - 1) / P) L P P 0 ((N - 1) % P)) L P).getD t 0 =
        start ((N - 1) / P) ((N - 1) % P) t := by
  have hP0 : (P : Int) ≠ 0 := by omega
  have hdiv : Int.tdiv (N - 1) P = (N - 1) / P := Int.tdiv_eq_ediv (by omega) (by omega)
  have hmod : Int.tmod (N - 1) P = (N - 1) % P := Int.tmod_eq_emod (by omega) (by omega)
  have hn0 : 0 ≤ (N - 1) / (P : Int) := Int.ediv_nonneg (by omega) (by omega)
  have hnle : (N - 1) / (P : Int) ≤ N - 1 := Int.ediv_le_self _ (by omega)
  have hr0 : 0 ≤ (N - 1) % (P : Int) := Int.emod_nonneg _ hP0
  have hrlt : (N - 1) % (P : Int) < P := Int.emod_lt_of_pos _ (by omega)
  have hrle : (N - 1) % (P : Int) ≤ N - 1 := by
    have h1 := Int.ediv_add_emod (N - 1) P
    have h2 : 0 ≤ (P : Int) * ((N - 1) / P) := Int.mul_nonneg (by omega) hn0
    omega
  have htot := start_total (N - 1) P (by omega)
  simp only [Int.toNat_ofNat] at htot
  have hle : ∀ u, u ≤ P → start ((N - 1) / P) ((N - 1) % P) u ≤ N - 1 := by
    intro u hu
    have := start_mono ((N - 1) / P) ((N - 1) % P) hn0 hu
    omega
  have hdistall : ∀ s, s < P →
      (distribute_file_loop ((N - 1) / P) L P P 0 ((N - 1) % P)).getD s 0
        = share ((N - 1) / P) ((N - 1) % P) s + (if s + 1 < P then L - 1 else 0) := by
    intro s hs
    rw [distribute_file_loop_getD _ L P hn0 hL (by omega) P 0 _ s hs hr0 (by omega)]
    congr 1
    split_ifs <;> omega
  constructor
  · simp only [distribute_file, hP0, if_false, Int.toNat_ofNat, hdiv, hmod]
    rw [to_int_eq (by omega) (by omega), to_int_eq (by omega) (by omega)]
  · intro t ht
    refine ⟨hdistall t ht, ?_⟩
    unfold displacment
    cases t with
    | zero => simp [start_zero _ _ hr0]
    | succ t =>
      rw [List.getD_cons_succ]
      have h0 := start_zero ((N - 1) / P) ((N - 1) % P) hr0
      have := displacment_loop_getD ((N - 1) / P) ((N - 1) % P) L hn0 hr0 hL (by omega)
        ((distribute_file_loop ((N - 1) / P) L P P 0 ((N - 1) % P)).take (P - 1)) 0
      rw [h0] at this
      have hlen : ((distribute_file_loop ((N - 1) / P) L P P 0 ((N - 1) % P)).take (P - 1)).length
          = P - 1 := by
        rw [List.length_take, distribute_file_loop_length]; omega
      rw [hlen] at this
      have h3 := this ?_ ?_ t (by omega)
      · rw [h3]; congr 1; omega
      · intro s hs
        rw [List.getD_eq_getElem?_getD, List.getElem?_take, if_pos hs,
          ← List.getD_eq_getElem?_getD, hdistall s (by omega), if_pos (by omega)]
        simp
      · intro s hs
        have := hle (0 + s + 1) (by omega)
        omega

/-- The array `thread_data` in closed form, when `file_size + pattern_size` fits in an
`int`. -/
theorem main_tasks_eq_of_fit (N L : Int) (P : Nat) (hL : 1 ≤ L) (hP : 1 ≤ P) (hN1 : 1 ≤ N)
    (hb : N + L < 2147483648) :
    main_tasks N L P = .ok ((List.range P).map (task_spec N L P)) := by
  obtain ⟨h1, h2⟩ := partition_closed_form N L P hL hP hN1 hb
  have hP0 : (P : Int) ≠ 0 := by omega
  have hn0 : 0 ≤ (N - 1) / (P : Int) := Int.ediv_nonneg (by omega) (by omega)
  have hr0 : 0 ≤ (N - 1) % (P : Int) := Int.emod_nonneg _ hP0
  have htot := start_total (N - 1) P (by omega)
  simp only [Int.toNat_ofNat] at htot
  unfold main_tasks
  rw [h1]
  simp only [Int.toNat_ofNat]
  congr 1
  apply List.map_congr_left
  intro t ht
  rw [List.mem_range] at ht
  obtain ⟨hdist, hdispl⟩ := h2 t ht
  have hs := start_succ ((N - 1) / P) ((N - 1) % P) t
  have hnn := start_nonneg ((N - 1) / P) ((N - 1) % P) hn0 hr0 t
  have hle1 : start ((N - 1) / P) ((N - 1) % P) (t + 1) ≤ N - 1 := by
    have := start_mono ((N - 1) / P) ((N - 1) % P) hn0 (show t + 1 ≤ P by omega)
    omega
  have hnn1 := start_nonneg ((N - 1) / P) ((N - 1) % P) hn0 hr0 (t + 1)
  simp only [make_task, task_spec, hdist, hdispl]
  have hraw : share ((N - 1) / P) ((N - 1) % P) t + (if t + 1 < P then L - 1 else 0)
      + start ((N - 1) / P) ((N - 1) % P) t
      = start ((N - 1) / P) ((N - 1) % P) (t + 1) + (if t + 1 < P then L - 1 else 0) := by
    omega
  rw [hraw]
  have hif : (0 : Int) ≤ (if t + 1 < P then L - 1 else 0) ∧
      (if t + 1 < P then L - 1 else 0) ≤ L - 1 := by
    split_ifs <;> omega
  rw [to_int_eq (by omega) (by omega), to_int_eq (by omega) (by omega)]
  congr 1
  split_ifs <;> omega

/-- Two consecutive ranges of `main` have `pattern_size` starting offsets in common when
the first one is not cut at `file_size - 2` and does not end after the second one. -/
theorem consecutive_ranges_common (N L : Int) (P t : Nat) (hL : 1 ≤ L) (hP : 1 ≤ P)
    (hN1 : 1 ≤ N) (ht : t + 1 < P)
    (hcut : start ((N - 1) / P) ((N - 1) % P) (t + 1) + (L - 1) ≤ N - 2)
    (hnext : (task_spec N L P t).last ≤ (task_spec N L P (t + 1)).last) :
    (common_offsets (task_spec N L P t) (task_spec N L P (t + 1)) : Int) = L := by
  have hn0 : 0 ≤ (N - 1) / (P : Int) := Int.ediv_nonneg (by omega) (by omega)
  have h1 := start_mono ((N - 1) / P) ((N - 1) % P) hn0 (show t ≤ t + 1 by omega)
  unfold common_offsets
  rw [min_eq_left hnext]
  simp only [task_spec, if_pos ht] at hnext ⊢
  rw [min_eq_left hcut, max_eq_right h1]
  omega

/-- C14 (failing input): for a file of 21 bytes, a pattern of 2 bytes and 2 workers, `main`
builds the ranges [0, 11] and [10, 19], which have the 2 = L starting offsets 10 and 11
in common, not L - 1 = 1. -/
theorem C14_ranges_share_L_offsets :
    main_tasks 21 2 2 =
      .ok [{ first := 0, last := 11, task_id := 0 }, { first := 10, last := 19, task_id := 1 }] ∧
    common_offsets { first := 0, last := 11, task_id := 0 }
      { first := 10, last := 19, task_id := 1 } = 2 :=
  ⟨rfl, by decide⟩

/-- The sum of the nominal shares of the workers before `t` is `start`, for `t ≤ p`. -/
theorem nominal_start_eq (N L : Int) (P : Nat) (hL : 1 ≤ L) (hP : 1 ≤ P) (hN1 : 1 ≤ N)
    (hb : N + L < 2147483648) :
    ∀ t, t ≤ P →
      nominal_start (distribute_file_loop ((N - 1) / P) L P P 0 ((N - 1) % P)) L P t =
        start ((N - 1) / P) ((N - 1) % P) t := by
  obtain ⟨_, h2⟩ := partition_closed_form N L P hL hP hN1 hb
  have hr0 : 0 ≤ (N - 1) % (P : Int) := Int.emod_nonneg _ (by omega)
  intro t
  induction t with
  | zero =>
    intro _
    rw [start_zero _ _ hr0]
    rfl
  | succ t ih =>
    intro ht
    have h3 := ih (by omega)
    unfold nominal_start at h3 ⊢
    rw [List.range_succ, List.map_append, List.sum_append, h3, start_succ]
    simp only [List.map_cons, List.map_nil, List.sum_cons, List.sum_nil, add_zero]
    unfold nominal_share
    rw [(h2 t (by omega)).1]
    omega

/-- Every offset from 0 to `file_size - 2` lies in the nominal range of exactly one
worker. -/
theorem start_partition (n r : Int) (hn : 0 ≤ n) (hr : 0 ≤ r) (P : Nat) (a : Int) (ha : 0 ≤ a)
    (hlt : a < start n r P) :
    ∃ t, (t < P ∧ start n r t ≤ a ∧ a < start n r (t + 1)) ∧
      ∀ u, (u < P ∧ start n r u ≤ a ∧ a < start n r (u + 1)) → u = t := by
  have key : ∀ u, u ≤ P → a < start n r u →
      ∃ t, t < u ∧ start n r t ≤ a ∧ a < start n r (t + 1) := by
    intro u
    induction u with
    | zero =>
      intro _ h
      rw [start_zero _ _ hr] at h
      omega
    | succ u ih =>
      intro hu h
      by_cases h2 : a < start n r u
      · obtain ⟨t, h3, h4⟩ := ih (by omega) h2
        exact ⟨t, by omega, h4⟩
      · exact ⟨u, by omega, by omega, h⟩
  obtain ⟨t, h1, h2, h3⟩ := key P (le_refl _) hlt
  refine ⟨t, ⟨h1, h2, h3⟩, ?_⟩
  rintro u ⟨_, h5, h6⟩
  rcases Nat.lt_trichotomy u t with h | h | h
  · have := start_mono n r hn (show u + 1 ≤ t by omega)
    omega
  · exact h
  · have := start_mono n r hn (show t + 1 ≤ u by omega)
    omega

/-- C15 (counterexample): for N = 8, L = 4 and P = 2, `distribute_file` as called from
`main` gives distribute = [7, 3], that is the nominal shares 4 and 3, which sum to
7 = N - 1; the claim gives base + 1 = 3 for the first worker and the sum N - L + 1 = 5. -/
theorem C15_shares_divide_file_size :
    distribute_file (8 - 1) 4 2 = .ok [7, 3] ∧
    nominal_share [7, 3] 4 2 0 = 4 ∧ nominal_share [7, 3] 4 2 1 = 3 ∧
    ((8 : Int) - 4 + 1) / 2 + 1 = 3 ∧ (8 : Int) - 4 + 1 = 5 :=
  ⟨rfl, by decide, by decide, by decide, by decide⟩

/-- C15 (amended): for every buffer length N ≥ 1, pattern length L ≥ 1 and worker count
P ≥ 1 with N + L in the range of `int`, the nominal shares the program assigns
(distribute[i] without the L - 1 expansion, as called from `main`) are base + 1 for the
first remainder workers and base for the others, where base = (N - 1) div P and
remainder = (N - 1) mod P; they sum to N - 1 and the nominal ranges partition the offsets
0 .. N - 2, so that each of these offsets has exactly one primary worker. -/
theorem C15_nominal_shares (N L : Int) (P : Nat) (hL : 1 ≤ L) (hP : 1 ≤ P) (hN1 : 1 ≤ N)
    (hb : N + L < 2147483648) :
    ∃ distribute, distribute_file (N - 1) L P = .ok distribute ∧
      (∀ t, t < P →
        nominal_share distribute L P t =
          (N - 1) / P + (if (t : Int) < (N - 1) % P then 1 else 0)) ∧
      nominal_start distribute L P P = N - 1 ∧
      ∀ a : Int, 0 ≤ a → a ≤ N - 2 →
        ∃ t, (t < P ∧ nominal_start distribute L P t ≤ a ∧
            a < nominal_start distribute L P (t + 1)) ∧
          ∀ u, (u < P ∧ nominal_start distribute L P u ≤ a ∧
            a < nominal_start distribute L P (u + 1)) → u = t := by
  obtain ⟨h1, h2⟩ := partition_closed_form N L P hL hP hN1 hb
  have hs := nominal_start_eq N L P hL hP hN1 hb
  have hn0 : 0 ≤ (N - 1) / (P : Int) := Int.ediv_nonneg (by omega) (by omega)
  have hr0 : 0 ≤ (N - 1) % (P : Int) := Int.emod_nonneg _ (by omega)
  have htot := start_total (N - 1) P (by omega)
  simp only [Int.toNat_ofNat] at htot
  refine ⟨_, h1, ?_, ?_, ?_⟩
  · intro t ht
    unfold nominal_share
    rw [(h2 t ht).1]
    unfold share
    omega
  · rw [hs P (le_refl _), htot]
  · intro a ha0 ha
    obtain ⟨t, ⟨h3, h4, h5⟩, h6⟩ :=
      start_partition _ _ hn0 hr0 P a ha0 (by rw [htot]; omega)
    refine ⟨t, ⟨h3, ?_, ?_⟩, ?_⟩
    · rw [hs t (by omega)]; exact h4
    · rw [hs (t + 1) (by omega)]; exact h5
    · rintro u ⟨h7, h8, h9⟩
      rw [hs u (by omega)] at h8
      rw [hs (u + 1) (by omega)] at h9
      exact h6 u ⟨h7, h8, h9⟩

/-- C15 (witness): N = 8, L = 4, P = 2: the nominal shares 4 and 3 sum to 7. -/
theorem C15_nominal_shares_witness :
    distribute_file (8 - 1) 4 2 = .ok [7, 3] ∧
    ∃ distribute, distribute_file (8 - 1) 4 ((2 : Nat) : Int) = .ok distribute ∧
      (∀ t, t < 2 →
        nominal_share distribute 4 2 t =
          (8 - 1) / ((2 : Nat) : Int) + (if (t : Int) < (8 - 1) % ((2 : Nat) : Int) then 1 else 0)) ∧
      nominal_start distribute 4 2 2 = 8 - 1 ∧
      ∀ a : Int, 0 ≤ a → a ≤ 8 - 2 →
        ∃ t, (t < 2 ∧ nominal_start distribute 4 2 t ≤ a ∧
            a < nominal_start distribute 4 2 (t + 1)) ∧
          ∀ u, (u < 2 ∧ nominal_start distribute 4 2 u ≤ a ∧
            a < nominal_start distribute 4 2 (u + 1)) → u = t :=
  ⟨rfl, C15_nominal_shares 8 4 2 (by decide) (by decide) (by decide) (by decide)⟩

/-- With at most `file_size - 1` workers no range of `main` is empty: each one starts at a
non-negative offset, not after its end, and ends at `file_size - 2` at most. -/
theorem task_spec_bounds (N L : Int) (P t : Nat) (hL : 1 ≤ L) (hP : 1 ≤ P)
    (hPN : (P : Int) ≤ N - 1) (ht : t < P) :
    0 ≤ (task_spec N L P t).first ∧ (task_spec N L P t).first ≤ (task_spec N L P t).last ∧
      (task_spec N L P t).last ≤ N - 2 := by
  have hn0 : 0 ≤ (N - 1) / (P : Int) := Int.ediv_nonneg (by omega) (by omega)
  have hn1 : 1 ≤ (N - 1) / (P : Int) := Int.le_ediv_of_mul_le (by omega) (by omega)
  have hr0 : 0 ≤ (N - 1) % (P : Int) := Int.emod_nonneg _ (by omega)
  have htot := start_total (N - 1) P (by omega)
  simp only [Int.toNat_ofNat] at htot
  have h1 := start_nonneg ((N - 1) / P) ((N - 1) % P) hn0 hr0 t
  have h2 := start_succ ((N - 1) / P) ((N - 1) % P) t
  have h3 := share_nonneg ((N - 1) / P) ((N - 1) % P) hn0 t
  have h4 : 1 ≤ share ((N - 1) / P) ((N - 1) % P) t := by
    unfold share; split_ifs <;> omega
  have h5 := start_mono ((N - 1) / P) ((N - 1) % P) hn0 (show t + 1 ≤ P by omega)
  have hif : (0 : Int) ≤ (if t + 1 < P then L - 1 else 0) := by
    split_ifs <;> omega
  simp only [task_spec]
  exact ⟨h1, le_min (by omega) (by omega), min_le_right _ _⟩

/-- C16: for every file_size, pattern length L ≥ 1 and worker count P with
1 ≤ P ≤ file_size - 1, file_size + L being in the range of `int`: displs[0] = 0 and
displs[t+1] = displs[t] + (file_size - 1) div P + (1 if t < (file_size - 1) mod P else 0);
every worker range satisfies 0 ≤ first ≤ last ≤ file_size - 2; and the union of the ranges
[first, last] is exactly 0 .. file_size - 2. -/
theorem C16_worker_ranges (N L : Int) (P : Nat) (hL : 1 ≤ L) (hP : 1 ≤ P)
    (hPN : (P : Int) ≤ N - 1) (hb : N + L < 2147483648) :
    ∃ distribute tasks, distribute_file (N - 1) L P = .ok distribute ∧
      main_tasks N L P = .ok tasks ∧
      (displacment distribute L P).getD 0 0 = 0 ∧
      (∀ t, t + 1 < P →
        (displacment distribute L P).getD (t + 1) 0 =
          (displacment distribute L P).getD t 0 + (N - 1) / P +
            (if (t : Int) < (N - 1) % P then 1 else 0)) ∧
      tasks.length = P ∧
      (∀ tk ∈ tasks, 0 ≤ tk.first ∧ tk.first ≤ tk.last ∧ tk.last ≤ N - 2) ∧
      ∀ a : Int, (0 ≤ a ∧ a ≤ N - 2) ↔ ∃ tk ∈ tasks, tk.first ≤ a ∧ a ≤ tk.last := by
  obtain ⟨h1, h2⟩ := partition_closed_form N L P hL hP (by omega) hb
  have h3 := main_tasks_eq_of_fit N L P hL hP (by omega) hb
  have hbounds : ∀ tk ∈ (List.range P).map (task_spec N L P),
      0 ≤ tk.first ∧ tk.first ≤ tk.last ∧ tk.last ≤ N - 2 := by
    intro tk htk
    rw [List.mem_map] at htk
    obtain ⟨t, ht, rfl⟩ := htk
    exact task_spec_bounds N L P t hL hP hPN (List.mem_range.mp ht)
  refine ⟨_, _, h1, h3, ?_, ?_, by simp, hbounds, ?_⟩
  · rfl
  · intro t ht
    rw [(h2 (t + 1) ht).2, (h2 t (by omega)).2, start_succ]
    unfold share
    omega
  · intro a
    constructor
    · rintro ⟨ha0, ha⟩
      obtain ⟨t, ht, h4, h5⟩ := task_spec_cover N L P hL hP (by omega) a.toNat (by omega)
      refine ⟨task_spec N L P t, List.mem_map.mpr ⟨t, List.mem_range.mpr ht, rfl⟩, ?_, ?_⟩
      · omega
      · omega
    · rintro ⟨tk, htk, h4, h5⟩
      obtain ⟨h6, _, h8⟩ := hbounds tk htk
      omega

/-- C16 (witness): a file of 21 bytes, a pattern of 2 bytes and 2 workers. -/
theorem C16_worker_ranges_witness :
    main_tasks 21 2 2 =
      .ok [{ first := 0, last := 11, task_id := 0 }, { first := 10, last := 19, task_id := 1 }] ∧
    ∃ distribute tasks, distribute_file (21 - 1) 2 ((2 : Nat) : Int) = .ok distribute ∧
      main_tasks 21 2 ((2 : Nat) : Int) = .ok tasks ∧
      (displacment distribute 2 2).getD 0 0 = 0 ∧
      (∀ t, t + 1 < 2 →
        (displacment distribute 2 2).getD (t + 1) 0 =
          (displacment distribute 2 2).getD t 0 + (21 - 1) / ((2 : Nat) : Int) +
            (if (t : Int) < (21 - 1) % ((2 : Nat) : Int) then 1 else 0)) ∧
      tasks.length = 2 ∧
      (∀ tk ∈ tasks, 0 ≤ tk.first ∧ tk.first ≤ tk.last ∧ tk.last ≤ 21 - 2) ∧
      ∀ a : Int, (0 ≤ a ∧ a ≤ 21 - 2) ↔ ∃ tk ∈ tasks, tk.first ≤ a ∧ a ≤ tk.last :=
  ⟨rfl, C16_worker_ranges 21 2 2 (by decide) (by decide) (by decide) (by decide)⟩

/-- The `while` loop of `find_string` at an offset `i ≥ 0` reads `file_buffer` below its
last byte and `pattern` inside its bytes. -/
theorem while_reads_bounds (buf pat : List Char) (i : Int) (hi : 0 ≤ i)
    (hL : pat.length < 2147483648) :
    ∀ (fuel j : Nat), j ≤ pat.length →
      ∀ p ∈ while_reads buf pat i fuel j,
        0 ≤ p.1 ∧ p.1 ≤ (buf.length : Int) - 2 ∧ 0 ≤ p.2 ∧ p.2 < pat.length := by
  intro fuel
  induction fuel with
  | zero => intro j _ p hp; simp [while_reads] at hp
  | succ fuel ih =>
    intro j hj p hp
    have hsz : to_size_t (j : Int) = j := to_size_t_eq (by omega) (by omega)
    unfold while_reads at hp
    rw [hsz] at hp
    by_cases hg : (j : Int) < pat.length ∧ i + (j : Int) < (buf.length : Int) - 1
    · rw [if_pos hg] at hp
      rcases List.mem_cons.mp hp with rfl | hp
      · simp only
        omega
      · have hj1 : (j : Int) + 1 = ((j + 1 : Nat) : Int) := by push_cast; rfl
        rw [hj1] at hp
        cases h1 : read buf (i + (j : Int)) with
        | none => rw [h1] at hp; simp at hp
        | some a =>
          cases h2 : read pat (j : Int) with
          | none => rw [h1, h2] at hp; simp at hp
          | some b =>
            rw [h1, h2] at hp
            simp only at hp
            by_cases hne : a ≠ b
            · rw [if_pos hne] at hp; simp at hp
            · rw [if_neg hne] at hp
              exact ih (j + 1) (by omega) p hp
    · rw [if_neg hg] at hp
      simp at hp

/-- The `for` loop of `find_string` from an offset `i ≥ 0` reads `file_buffer` below its
last byte and `pattern` inside its bytes, whatever `last` is. -/
theorem for_reads_bounds (buf pat : List Char) (t : task_data)
    (hL : pat.length < 2147483648) :
    ∀ (fuel : Nat) (i : Int), 0 ≤ i →
      ∀ p ∈ for_reads buf pat t fuel i,
        0 ≤ p.1 ∧ p.1 ≤ (buf.length : Int) - 2 ∧ 0 ≤ p.2 ∧ p.2 < pat.length := by
  intro fuel
  induction fuel with
  | zero => intro i _ p hp; simp [for_reads] at hp
  | succ fuel ih =>
    intro i hi p hp
    unfold for_reads at hp
    by_cases hle : i ≤ t.last
    · rw [if_pos hle] at hp
      rcases List.mem_append.mp hp with hp | hp
      · exact while_reads_bounds buf pat i hi hL (pat.length + 1) 0 (by omega) p hp
      · exact ih (i + 1) (by omega) p hp
    · rw [if_neg hle] at hp
      simp at hp

/-- The `while` loop of `find_string` ends by its own test: more iterations allowed give
the same result. -/
theorem while_loop_fuel (buf pat : List Char) (i : Int) (hL : pat.length < 2147483648) :
    ∀ (fuel1 fuel2 j : Nat), j ≤ pat.length → pat.length + 1 ≤ j + fuel1 →
      pat.length + 1 ≤ j + fuel2 →
      while_loop buf pat i fuel1 j = while_loop buf pat i fuel2 j := by
  intro fuel1
  induction fuel1 with
  | zero => intro fuel2 j h1 h2; omega
  | succ fuel1 ih =>
    intro fuel2 j h1 h2 h3
    cases fuel2 with
    | zero => omega
    | succ fuel2 =>
      have hsz : to_size_t (j : Int) = j := to_size_t_eq (by omega) (by omega)
      unfold while_loop
      rw [hsz]
      by_cases hg : (j : Int) < pat.length ∧ i + (j : Int) < (buf.length : Int) - 1
      · rw [if_pos hg, if_pos hg]
        have hj1 : (j : Int) + 1 = ((j + 1 : Nat) : Int) := by push_cast; rfl
        rw [hj1, ih fuel2 (j + 1) (by omega) (by omega) (by omega)]
      · rw [if_neg hg, if_neg hg]

/-- The `for` loop of `find_string` ends by its own test: once the iterations left are
counted, more iterations allowed give the same result. -/
theorem for_loop_fuel (buf pat : List Char) (t : task_data) :
    ∀ (fuel extra : Nat) (i : Int) (found : List x), t.last + 1 ≤ i + fuel →
      for_loop buf pat t (fuel + extra) i found = for_loop buf pat t fuel i found := by
  intro fuel
  induction fuel with
  | zero =>
    intro extra i found h
    cases extra with
    | zero => rfl
    | succ extra =>
      simp only [Nat.zero_add]
      unfold for_loop
      rw [if_neg (by omega)]
  | succ fuel ih =>
    intro extra i found h
    have e : fuel + 1 + extra = (fuel + extra) + 1 := by omega
    rw [e]
    unfold for_loop
    by_cases hle : i ≤ t.last
    · rw [if_pos hle, if_pos hle]
      have h1 : t.last + 1 ≤ i + 1 + (fuel : Int) := by push_cast at h; omega
      cases while_loop buf pat i (pat.length + 1) 0 with
      | error e => rfl
      | ok j =>
        simp only
        by_cases hj : to_size_t j = pat.length
        · rw [if_pos hj, if_pos hj]
          cases store found { thread_id := t.task_id, index := i } with
          | error e => rfl
          | ok found1 => exact ih extra (i + 1) found1 h1
        · rw [if_neg hj, if_neg hj]
          exact ih extra (i + 1) found h1
    · rw [if_neg hle, if_neg hle]

/-- The offsets of the records a worker stores are pairwise different. -/
theorem task_hits_nodup (buf pat : List Char) (t : task_data) :
    ((task_hits buf pat t).map x.index).Nodup := by
  unfold task_hits hits
  rw [List.map_map]
  apply List.Nodup.map
  · intro a b h
    simp only [Function.comp] at h
    exact Int.ofNat_inj.mp h
  · exact List.Nodup.filter _ (List.nodup_range' _ _)

/-- C17: for every worker range with 0 ≤ first and last < INT_MAX, every buffer whose
length is in the range of `int` and every pattern of length L with 1 ≤ L < 2^31, run with
`found` inside its storage: `find_string` only reads `file_buffer` at indexes i + j with
0 ≤ i + j ≤ file_size - 2 and `pattern` at indexes j < L, so that no read is out of
bounds; the counters stay in the range of `int`; its loops end by their own tests; every
record it appends has first ≤ index ≤ last, index + L ≤ file_size - 1 and
file_buffer[index .. index+L) equal to the pattern; and it records an index at most
once. -/
theorem C17_find_string_safe (file_buffer pattern : List Char) (t : task_data)
    (found : List x) (hfirst : 0 ≤ t.first) (hlast : t.last < 2147483647)
    (hN : file_buffer.length < 2147483648)
    (hL1 : 1 ≤ pattern.length) (hL : pattern.length < 2147483648)
    (hcap : found.length ≤ FOUND_CAPACITY) :
    (∀ p ∈ find_string_reads file_buffer pattern t,
      0 ≤ p.1 ∧ p.1 ≤ (file_buffer.length : Int) - 2 ∧ 0 ≤ p.2 ∧ p.2 < pattern.length ∧
        to_int p.1 = p.1 ∧ to_int p.2 = p.2) ∧
    (∀ i, t.first ≤ i → i ≤ t.last + 1 → to_int i = i) ∧
    find_string file_buffer pattern t found ≠ .error .buffer_overread ∧
    (∀ (i : Int) (extra : Nat),
      while_loop file_buffer pattern i (pattern.length + 1 + extra) 0 =
        while_loop file_buffer pattern i (pattern.length + 1) 0) ∧
    (∀ extra : Nat,
      for_loop file_buffer pattern t ((t.last + 1 - t.first).toNat + extra) t.first found =
        find_string file_buffer pattern t found) ∧
    (∀ found1, find_string file_buffer pattern t found = .ok found1 →
      ∃ new, found1 = found ++ new ∧
        (∀ r ∈ new, r.thread_id = t.task_id ∧ t.first ≤ r.index ∧ r.index ≤ t.last ∧
          r.index + pattern.length ≤ (file_buffer.length : Int) - 1 ∧
          occurs file_buffer pattern r.index.toNat) ∧
        (new.map x.index).Nodup) := by
  have heq := find_string_eq file_buffer pattern t found hL1 hL hfirst hcap
  refine ⟨?_, ?_, ?_, ?_, ?_, ?_⟩
  · intro p hp
    obtain ⟨h1, h2, h3, h4⟩ :=
      for_reads_bounds file_buffer pattern t hL _ t.first hfirst p hp
    exact ⟨h1, h2, h3, h4, to_int_eq (by omega) (by omega), to_int_eq (by omega) (by omega)⟩
  · intro i h1 h2
    exact to_int_eq (by omega) (by omega)
  · rw [heq]
    split_ifs <;> simp
  · intro i extra
    exact while_loop_fuel file_buffer pattern i hL _ _ 0 (by omega) (by omega) (by omega)
  · intro extra
    unfold find_string
    exact for_loop_fuel file_buffer pattern t _ extra t.first found (by omega)
  · intro found1 h
    rw [heq] at h
    by_cases hc : found.length + (task_hits file_buffer pattern t).length ≤ FOUND_CAPACITY
    · rw [if_pos hc] at h
      injection h with h
      refine ⟨task_hits file_buffer pattern t, h.symm, ?_, task_hits_nodup _ _ _⟩
      intro r hr
      rw [mem_task_hits _ _ _ hfirst] at hr
      obtain ⟨h1, a, h2, h3, h4, h5⟩ := hr
      have h6 := h5.1
      refine ⟨h1, by omega, by omega, by omega, ?_⟩
      rw [h2, Int.toNat_ofNat]
      exact h5.2
    · rw [if_neg hc] at h
      cases h

/-- C17 (witness): the range [0, 9] on "aaaab" with the pattern "aa": the worker records
the offsets 0, 1 and 2 and ends without reading past the buffer, although `last` is
beyond its end. -/
theorem C17_find_string_safe_witness :
    find_string overlap_buffer overlap_pattern { first := 0, last := 9, task_id := 0 } [] =
      .ok [{ thread_id := 0, index := 0 }, { thread_id := 0, index := 1 },
        { thread_id := 0, index := 2 }] ∧
    find_string overlap_buffer overlap_pattern { first := 0, last := 9, task_id := 0 } [] ≠
      .error .buffer_overread :=
  ⟨rfl, (C17_find_string_safe overlap_buffer overlap_pattern
    { first := 0, last := 9, task_id := 0 } [] (by decide) (by decide) (by decide)
    (by decide) (by decide) (by decide)).2.2.1⟩

end Redacted
